import Mathlib

/-!
# CDF 5/3 lifting wavelet transform (`dwt53.go`)

A shallow embedding of `Fwt53` and `Iwt53` and the properties of the transform.

* A Go `[]float64` is a `List ℚ`: the arithmetic is read as exact arithmetic, and
  the untyped Go constants (`scale53 = 1.4142135623730951`, `iscale53 = 1 / scale53`)
  are the exact rationals the Go constant expressions denote.
* A Go `int` index is an `Int`, so that `n-2` may be negative as it is in Go.
* A call either returns the final buffer or stops with a `Panic`, which records the
  kind of failure and the contents of the caller's buffer at that moment.
* Where a property depends on the range of `float64`, `Fwt53F` is the same function
  on `List F64`, with `F64` a model of IEEE 754 binary64 (round to nearest, ties to
  even, with infinities, NaN and signed zeros).
-/

namespace Dwt53

/-! ## Constants -/

def p1_53 : ℚ := -0.5
def ip1_53 : ℚ := -p1_53

def u1_53 : ℚ := 0.25
def iu1_53 : ℚ := -u1_53

def scale53 : ℚ := 1.4142135623730951
def iscale53 : ℚ := 1 / scale53

/-! ## Failure model -/

/-- The two ways a call can stop: the length check of `validateLen`, and the
run-time index check of a slice access. -/
inductive Err where
  | invalidLength
  | indexOutOfRange
  deriving DecidableEq, Repr

/-- A stopped call: why it stopped, and the caller's buffer as it is at that moment. -/
structure Panic where
  kind : Err
  buf : List ℚ
  deriving DecidableEq, Repr

/-- Slice read `a[i]`; `none` stands for the index-out-of-range panic. -/
def idx (a : List ℚ) (i : Int) : Option ℚ :=
  if 0 ≤ i ∧ i < a.length then a[i.toNat]? else none

/-- Slice write `a[i] = v`; `none` stands for the index-out-of-range panic. -/
def upd (a : List ℚ) (i : Int) (v : ℚ) : Option (List ℚ) :=
  if 0 ≤ i ∧ i < a.length then some (a.set i.toNat v) else none

/-- A failed slice access stops the call; `xn` is the caller's buffer at that moment. -/
def orPanic {α : Type} (xn : List ℚ) : Option α → Except Panic α
  | some a => .ok a
  | none => .error ⟨Err.indexOutOfRange, xn⟩

/-- The builtin `copy(dst, src)`: the first `min (len dst) (len src)` elements of
`src` overwrite those of `dst`. -/
def copy (dst src : List ℚ) : List ℚ :=
  src.take dst.length ++ dst.drop src.length

/-! ## Loops -/

/-- Iterations of `for i := i; i < hi; i += step { body }`. The first argument bounds
the number of iterations still possible; `forLoop` starts it at `hi - i`, which for
`step ≥ 1` is never exceeded, so at `0` the loop condition is false. -/
def forLoopAux {σ ε : Type} (body : Int → σ → Except ε σ) (hi step : Int) :
    Nat → Int → σ → Except ε σ
  | 0, _, s => .ok s
  | d + 1, i, s =>
    if i < hi then
      match body i s with
      | .ok s' => forLoopAux body hi step d (i + step) s'
      | .error e => .error e
    else .ok s

/-- The loop `for i := lo; i < hi; i += step { body }` on the state `s`. -/
def forLoop {σ ε : Type} (lo hi step : Int) (body : Int → σ → Except ε σ) (s : σ) :
    Except ε σ :=
  forLoopAux body hi step (hi - lo).toNat lo s

/-! ## Loop bodies -/

/-- The statement `xn[i] += c * (xn[i-1] + xn[i+1])`. -/
def liftAt (c : ℚ) (i : Int) (xn : List ℚ) : Except Panic (List ℚ) := do
  let x ← orPanic xn (idx xn i)
  let l ← orPanic xn (idx xn (i - 1))
  let r ← orPanic xn (idx xn (i + 1))
  orPanic xn (upd xn i (x + c * (l + r)))

/-- The statement `xn[i] += 2 * c * xn[j]`. -/
def edgeAt (c : ℚ) (i j : Int) (xn : List ℚ) : Except Panic (List ℚ) := do
  let x ← orPanic xn (idx xn i)
  let y ← orPanic xn (idx xn j)
  orPanic xn (upd xn i (x + 2 * c * y))

/-- The statement `if i%2 != 0 { xn[i] = xn[i] * s } else { xn[i] /= s }`.
Go's `%` truncates, as `Int.tmod` does. -/
def scaleAt (s : ℚ) (i : Int) (xn : List ℚ) : Except Panic (List ℚ) := do
  if Int.tmod i 2 ≠ 0 then
    let x ← orPanic xn (idx xn i)
    orPanic xn (upd xn i (x * s))
  else
    let x ← orPanic xn (idx xn i)
    orPanic xn (upd xn i (x / s))

/-- The statement `if i%2 == 0 { tb[i/2] = xn[i] } else { tb[n/2+i/2] = xn[i] }` of
the pack loop; the loop state is `tb`. Go's `/` truncates, as `Int.tdiv` does. -/
def packAt (n : Int) (xn : List ℚ) (i : Int) (tb : List ℚ) : Except Panic (List ℚ) := do
  if Int.tmod i 2 = 0 then
    let x ← orPanic xn (idx xn i)
    orPanic xn (upd tb (Int.tdiv i 2) x)
  else
    let x ← orPanic xn (idx xn i)
    orPanic xn (upd tb (Int.tdiv n 2 + Int.tdiv i 2) x)

/-- The statements `tb[i*2] = xn[i]; tb[i*2+1] = xn[i+n/2]` of the unpack loop; the
loop state is `tb`. -/
def unpackAt (n : Int) (xn : List ℚ) (i : Int) (tb : List ℚ) : Except Panic (List ℚ) := do
  let a ← orPanic xn (idx xn i)
  let tb ← orPanic xn (upd tb (i * 2) a)
  let b ← orPanic xn (idx xn (i + Int.tdiv n 2))
  orPanic xn (upd tb (i * 2 + 1) b)

/-! ## Length validation -/

/-- A positive power of two. The exponent is bounded by `n` (as `k < 2 ^ k`), which
makes the property decidable by search. -/
def isPow2 (n : Nat) : Prop := ∃ k, k < n ∧ n = 2 ^ k

instance (n : Nat) : Decidable (isPow2 n) := by
  unfold isPow2; infer_instance

/-- Modelled from the spec: `validateLen` is called by `Fwt53` and `Iwt53` but is not
part of `dwt53.go`. Following the spec's LengthValidator, it returns the length `n` of
the buffer, and fails with the invalid-length error when `n` is not a positive power of
two (`n = 0` included); it has no side effects. -/
def validateLen (xn : List ℚ) : Except Panic Int :=
  if isPow2 xn.length then .ok (xn.length : Int) else .error ⟨Err.invalidLength, xn⟩

/-! ## The stages of `Fwt53` -/

/-- The `// predict 1` section of `Fwt53`. -/
def Fwt53_predict1 (n : Int) (xn : List ℚ) : Except Panic (List ℚ) := do
  let xn ← forLoop 1 (n - 2) 2 (liftAt p1_53) xn
  edgeAt p1_53 (n - 1) (n - 2) xn

/-- The `// update 1` section of `Fwt53`. -/
def Fwt53_update1 (n : Int) (xn : List ℚ) : Except Panic (List ℚ) := do
  let xn ← forLoop 2 n 2 (liftAt u1_53) xn
  edgeAt u1_53 0 1 xn

/-- The `// scale` section of `Fwt53`. -/
def Fwt53_scale (n : Int) (xn : List ℚ) : Except Panic (List ℚ) :=
  forLoop 0 n 1 (scaleAt scale53) xn

/-- The `// pack` section of `Fwt53`: `tb := make([]float64, n)`, the loop, and
`copy(xn, tb)`. -/
def Fwt53_pack (n : Int) (xn : List ℚ) : Except Panic (List ℚ) := do
  let tb ← forLoop 0 n 1 (packAt n xn) (List.replicate n.toNat 0)
  pure (copy xn tb)

/-- The function `Fwt53`. -/
def Fwt53 (xn : List ℚ) : Except Panic (List ℚ) := do
  let n ← validateLen xn
  let xn ← Fwt53_predict1 n xn
  let xn ← Fwt53_update1 n xn
  let xn ← Fwt53_scale n xn
  Fwt53_pack n xn

/-! ## The stages of `Iwt53` -/

/-- The `// unpack` section of `Iwt53`. -/
def Iwt53_unpack (n : Int) (xn : List ℚ) : Except Panic (List ℚ) := do
  let tb ← forLoop 0 (Int.tdiv n 2) 1 (unpackAt n xn) (List.replicate n.toNat 0)
  pure (copy xn tb)

/-- The `// undo scale` section of `Iwt53`. -/
def Iwt53_unscale (n : Int) (xn : List ℚ) : Except Panic (List ℚ) :=
  forLoop 0 n 1 (scaleAt iscale53) xn

/-- The `// undo update 1` section of `Iwt53`. -/
def Iwt53_unupdate1 (n : Int) (xn : List ℚ) : Except Panic (List ℚ) := do
  let xn ← forLoop 2 n 2 (liftAt iu1_53) xn
  edgeAt iu1_53 0 1 xn

/-- The `// undo predict 1` section of `Iwt53`. -/
def Iwt53_unpredict1 (n : Int) (xn : List ℚ) : Except Panic (List ℚ) := do
  let xn ← forLoop 1 (n - 2) 2 (liftAt ip1_53) xn
  edgeAt ip1_53 (n - 1) (n - 2) xn

/-- The function `Iwt53`. -/
def Iwt53 (xn : List ℚ) : Except Panic (List ℚ) := do
  let n ← validateLen xn
  let xn ← Iwt53_unpack n xn
  let xn ← Iwt53_unscale n xn
  let xn ← Iwt53_unupdate1 n xn
  Iwt53_unpredict1 n xn

/-! ## Stage functions

The stages written as functions on lists; the theorems below show that the loops
of `Fwt53` and `Iwt53` compute them. -/

/-- The list `[f 0, f 1, ..., f (n-1)]`. -/
def tabulate (n : Nat) (f : Nat → ℚ) : List ℚ := (List.range n).map f

/-- The lifting step on the odd positions of a buffer of even length: an interior odd
position `j` gets `x[j] + c * (x[j-1] + x[j+1])`, the last position gets
`x[j] + 2 * c * x[j-1]`, the even positions are kept. -/
def liftOdd (c : ℚ) (xn : List ℚ) : List ℚ :=
  tabulate xn.length fun j =>
    if j % 2 = 1 then
      if j + 2 < xn.length then xn.getD j 0 + c * (xn.getD (j - 1) 0 + xn.getD (j + 1) 0)
      else xn.getD j 0 + 2 * c * xn.getD (j - 1) 0
    else xn.getD j 0

/-- The lifting step on the even positions: position `0` gets `x[0] + 2 * c * x[1]`,
an even position `j ≥ 2` gets `x[j] + c * (x[j-1] + x[j+1])`, the odd positions are
kept. -/
def liftEven (c : ℚ) (xn : List ℚ) : List ℚ :=
  tabulate xn.length fun j =>
    if j % 2 = 0 then
      if j = 0 then xn.getD 0 0 + 2 * c * xn.getD 1 0
      else xn.getD j 0 + c * (xn.getD (j - 1) 0 + xn.getD (j + 1) 0)
    else xn.getD j 0

/-- Odd positions are multiplied by `s`, even positions are divided by `s`. -/
def scaleBy (s : ℚ) (xn : List ℚ) : List ℚ :=
  tabulate xn.length fun j => if j % 2 = 1 then xn.getD j 0 * s else xn.getD j 0 / s

/-- Even positions first, then odd positions. -/
def deinterleave (xn : List ℚ) : List ℚ :=
  tabulate xn.length fun k =>
    if k < xn.length / 2 then xn.getD (2 * k) 0 else xn.getD (2 * (k - xn.length / 2) + 1) 0

/-- The first half goes to the even positions, the second half to the odd positions. -/
def interleave (xn : List ℚ) : List ℚ :=
  tabulate xn.length fun j =>
    if j % 2 = 0 then xn.getD (j / 2) 0 else xn.getD (j / 2 + xn.length / 2) 0

/-- The detail coefficient before scaling: `x[2j+1] - (x[2j] + x[2j+2]) / 2` for
`j < n/2 - 1`, and `x[n-1] - x[n-2]` for the last one. -/
def detail (x : List ℚ) (j : Nat) : ℚ :=
  if j + 1 < x.length / 2 then x.getD (2 * j + 1) 0 - (x.getD (2 * j) 0 + x.getD (2 * j + 2) 0) / 2
  else x.getD (x.length - 1) 0 - x.getD (x.length - 2) 0

/-- The buffer extended by whole-sample symmetry: position `-k` mirrors to `k`, and
position `n - 1 + k` mirrors to `n - 1 - k`; so `xn[-1] := xn[1]` and `xn[n] := xn[n-2]`. -/
def mirror (xn : List ℚ) (i : Int) : ℚ :=
  if i < 0 then xn.getD (-i).toNat 0
  else if (xn.length : Int) ≤ i then xn.getD (2 * ((xn.length : Int) - 1) - i).toNat 0
  else xn.getD i.toNat 0

/-- The interior predict formula `xn[i] + p1_53 * (xn[i-1] + xn[i+1])` at every odd
position of the mirrored signal. -/
def predictMirrored (xn : List ℚ) : List ℚ :=
  tabulate xn.length fun j =>
    if j % 2 = 1 then
      xn.getD j 0 + p1_53 * (mirror xn ((j : Int) - 1) + mirror xn ((j : Int) + 1))
    else xn.getD j 0

/-- The interior update formula `xn[i] + u1_53 * (xn[i-1] + xn[i+1])` at every even
position of the mirrored signal. -/
def updateMirrored (xn : List ℚ) : List ℚ :=
  tabulate xn.length fun j =>
    if j % 2 = 0 then
      xn.getD j 0 + u1_53 * (mirror xn ((j : Int) - 1) + mirror xn ((j : Int) + 1))
    else xn.getD j 0

/-- The transform that applies the interior formulas uniformly to the mirrored signal,
then scales and packs. -/
def Fwt53_mirrored (xn : List ℚ) : List ℚ :=
  deinterleave (scaleBy scale53 (updateMirrored (predictMirrored xn)))

/-- The combination `a * x + b * y`, element for element. -/
def lincomb (a b : ℚ) (x y : List ℚ) : List ℚ :=
  List.zipWith (fun u v => a * u + b * v) x y

/-- The affine signal `x[i] = a + b * i` of length `n`. -/
def ramp (a b : ℚ) (n : Nat) : List ℚ :=
  tabulate n fun i => a + b * (i : ℚ)

/-! ## A model of `float64` arithmetic -/

/-- A `float64` value. `fin neg m e` is the number `(-1)^neg * m * 2^e` with
`-1074 ≤ e ≤ 971` and `m < 2^53`, where `2^52 ≤ m` unless `e = -1074`: every finite
IEEE 754 binary64 number (the two zeros included) has exactly one such form. `inf neg`
is `+Inf` or `-Inf`, and `nan` is a NaN. -/
inductive F64 where
  | fin (neg : Bool) (m : Nat) (e : Int)
  | inf (neg : Bool)
  | nan
  deriving DecidableEq, Repr

/-- The number of halvings that bring `n` below 2, which is `⌊log₂ n⌋` for `n ≥ 1`;
the first argument bounds the number of steps and `n` itself is always enough. -/
def log2Aux : Nat → Nat → Nat
  | 0, _ => 0
  | fuel + 1, n => if 2 ≤ n then log2Aux fuel (n / 2) + 1 else 0

/-- The integer `⌊log₂ (p / q)⌋` for `p, q ≥ 1`. -/
def floorLog2 (p q : Nat) : Int :=
  let t : Int := (log2Aux p p : Int) - (log2Aux q q : Int)
  if q * 2 ^ t.toNat ≤ p * 2 ^ (-t).toNat then t else t - 1

/-- Rounding to `float64`, to nearest with ties to even: the value of `roundNE neg p q`
is the `float64` nearest to `(-1)^neg * p / q` (`q ≥ 1`). The spacing of the `float64`
numbers around `p / q` is `2^e` with `e = max (⌊log₂ (p / q)⌋ - 52) (-1074)`; a result
of `2^1024` or more in magnitude is an infinity. -/
def roundNE (neg : Bool) (p q : Nat) : F64 :=
  if p = 0 then .fin neg 0 (-1074)
  else
    let e : Int := max (floorLog2 p q - 52) (-1074)
    let num := p * 2 ^ (-e).toNat
    let den := q * 2 ^ e.toNat
    let k := num / den
    let r := num % den
    let k := if den < 2 * r ∨ (2 * r = den ∧ k % 2 = 1) then k + 1 else k
    let m := if k = 2 ^ 53 then 2 ^ 52 else k
    let e := if k = 2 ^ 53 then e + 1 else e
    if 971 < e then .inf neg else .fin neg m e

/-- A finite `float64` magnitude `m * 2^e` counted in units of `2^(-1074)`. -/
def units (m : Nat) (e : Int) : Nat := m * 2 ^ (e + 1074).toNat

/-- The `float64` sum `x + y`. -/
def F64.add : F64 → F64 → F64
  | .nan, _ => .nan
  | _, .nan => .nan
  | .inf a, .inf b => if a = b then .inf a else .nan
  | .inf a, .fin _ _ _ => .inf a
  | .fin _ _ _, .inf b => .inf b
  | .fin a m e, .fin b n f =>
    let x : Int := if a then -(units m e : Int) else (units m e : Int)
    let y : Int := if b then -(units n f : Int) else (units n f : Int)
    if x + y = 0 then .fin (a && b) 0 (-1074)
    else roundNE (decide (x + y < 0)) (x + y).natAbs (2 ^ 1074)

/-- The `float64` product `x * y`. -/
def F64.mul : F64 → F64 → F64
  | .nan, _ => .nan
  | _, .nan => .nan
  | .inf a, .inf b => .inf (a != b)
  | .inf a, .fin b n _ => if n = 0 then .nan else .inf (a != b)
  | .fin a m _, .inf b => if m = 0 then .nan else .inf (a != b)
  | .fin a m e, .fin b n f => roundNE (a != b) (units m e * units n f) (2 ^ 2148)

/-- The `float64` quotient `x / y`. -/
def F64.div : F64 → F64 → F64
  | .nan, _ => .nan
  | _, .nan => .nan
  | .inf _, .inf _ => .nan
  | .inf a, .fin b _ _ => .inf (a != b)
  | .fin a _ _, .inf b => .fin (a != b) 0 (-1074)
  | .fin a m e, .fin b n f =>
    if n = 0 then (if m = 0 then .nan else .inf (a != b))
    else roundNE (a != b) (units m e) (units n f)

/-- The Go comparison `x == 0`, true of both zeros. -/
def F64.isZero : F64 → Bool
  | .fin _ m _ => m == 0
  | _ => false

/-! ## `Fwt53` on `float64` values -/

/-- The constant `p1_53 = -0.5` as a `float64`. -/
def p1_53F : F64 := roundNE true 1 2

/-- The constant expression `2 * p1_53 = -1` as a `float64`. -/
def two_p1_53F : F64 := roundNE true 1 1

/-- The constant `u1_53 = 0.25` as a `float64`. -/
def u1_53F : F64 := roundNE false 1 4

/-- The constant expression `2 * u1_53 = 0.5` as a `float64`. -/
def two_u1_53F : F64 := roundNE false 1 2

/-- The constant `scale53 = 1.4142135623730951` as a `float64`. -/
def scale53F : F64 := roundNE false 14142135623730951 10000000000000000

/-- A stopped call on a `float64` buffer: why it stopped, and the caller's buffer as it
is at that moment. -/
structure PanicF where
  kind : Err
  buf : List F64
  deriving DecidableEq, Repr

/-- Slice read `a[i]`; `none` stands for the index-out-of-range panic. -/
def idxF (a : List F64) (i : Int) : Option F64 :=
  if 0 ≤ i ∧ i < a.length then a[i.toNat]? else none

/-- Slice write `a[i] = v`; `none` stands for the index-out-of-range panic. -/
def updF (a : List F64) (i : Int) (v : F64) : Option (List F64) :=
  if 0 ≤ i ∧ i < a.length then some (a.set i.toNat v) else none

/-- A failed slice access stops the call; `xn` is the caller's buffer at that moment. -/
def orPanicF {α : Type} (xn : List F64) : Option α → Except PanicF α
  | some a => .ok a
  | none => .error ⟨Err.indexOutOfRange, xn⟩

/-- The builtin `copy(dst, src)` on `float64` slices. -/
def copyF (dst src : List F64) : List F64 :=
  src.take dst.length ++ dst.drop src.length

/-- The statement `xn[i] += c * (xn[i-1] + xn[i+1])` in `float64` arithmetic: the sum,
the product and the final sum are each rounded. -/
def liftAtF (c : F64) (i : Int) (xn : List F64) : Except PanicF (List F64) := do
  let x ← orPanicF xn (idxF xn i)
  let l ← orPanicF xn (idxF xn (i - 1))
  let r ← orPanicF xn (idxF xn (i + 1))
  orPanicF xn (updF xn i (x.add (c.mul (l.add r))))

/-- The statement `xn[i] += 2 * c * xn[j]` in `float64` arithmetic; `c2` is the constant
expression `2 * c`. -/
def edgeAtF (c2 : F64) (i j : Int) (xn : List F64) : Except PanicF (List F64) := do
  let x ← orPanicF xn (idxF xn i)
  let y ← orPanicF xn (idxF xn j)
  orPanicF xn (updF xn i (x.add (c2.mul y)))

/-- The statement `if i%2 != 0 { xn[i] = xn[i] * s } else { xn[i] /= s }` in `float64`
arithmetic. -/
def scaleAtF (s : F64) (i : Int) (xn : List F64) : Except PanicF (List F64) := do
  if Int.tmod i 2 ≠ 0 then
    let x ← orPanicF xn (idxF xn i)
    orPanicF xn (updF xn i (x.mul s))
  else
    let x ← orPanicF xn (idxF xn i)
    orPanicF xn (updF xn i (x.div s))

/-- The statement `if i%2 == 0 { tb[i/2] = xn[i] } else { tb[n/2+i/2] = xn[i] }` of
the pack loop on `float64` slices; the loop state is `tb`. -/
def packAtF (n : Int) (xn : List F64) (i : Int) (tb : List F64) :
    Except PanicF (List F64) := do
  if Int.tmod i 2 = 0 then
    let x ← orPanicF xn (idxF xn i)
    orPanicF xn (updF tb (Int.tdiv i 2) x)
  else
    let x ← orPanicF xn (idxF xn i)
    orPanicF xn (updF tb (Int.tdiv n 2 + Int.tdiv i 2) x)

/-- Modelled from the spec: `validateLen` on a `float64` buffer, as `validateLen` above. -/
def validateLenF (xn : List F64) : Except PanicF Int :=
  if isPow2 xn.length then .ok (xn.length : Int) else .error ⟨Err.invalidLength, xn⟩

/-- The function `Fwt53` in `float64` arithmetic: the same statements as `Fwt53` above,
in the same order, with every arithmetic operation rounded to `float64`. -/
def Fwt53F (xn : List F64) : Except PanicF (List F64) := do
  let n ← validateLenF xn
  -- predict 1
  let xn ← forLoop 1 (n - 2) 2 (liftAtF p1_53F) xn
  let xn ← edgeAtF two_p1_53F (n - 1) (n - 2) xn
  -- update 1
  let xn ← forLoop 2 n 2 (liftAtF u1_53F) xn
  let xn ← edgeAtF two_u1_53F 0 1 xn
  -- scale
  let xn ← forLoop 0 n 1 (scaleAtF scale53F) xn
  -- pack
  let tb ← forLoop 0 n 1 (packAtF n xn) (List.replicate n.toNat (F64.fin false 0 (-1074)))
  pure (copyF xn tb)

/-! # Properties -/

/-! ## Slice accesses -/

theorem idx_ok (a : List ℚ) (i : Int) (h0 : 0 ≤ i) (h1 : i < a.length) :
    idx a i = some (a.getD i.toNat 0) := by
  have h : i.toNat < a.length := by omega
  simp [idx, h0, h1, List.getD_eq_getElem?_getD, List.getElem?_eq_getElem h]

theorem upd_ok (a : List ℚ) (i : Int) (v : ℚ) (h0 : 0 ≤ i) (h1 : i < a.length) :
    upd a i v = some (a.set i.toNat v) := by
  simp [upd, h0, h1]

theorem idx_none (a : List ℚ) (i : Int) (h : i < 0 ∨ (a.length : Int) ≤ i) :
    idx a i = none := by
  unfold idx
  rw [if_neg]
  omega

theorem getD_set (a : List ℚ) (i j : Nat) (v : ℚ) (h : i < a.length) :
    (a.set i v).getD j 0 = if j = i then v else a.getD j 0 := by
  simp only [List.getD_eq_getElem?_getD, List.getElem?_set]
  by_cases hij : i = j
  · subst hij; simp [h]
  · have : ¬ j = i := fun e => hij e.symm
    simp [hij, this]

theorem ext_getD (a b : List ℚ) (hlen : a.length = b.length)
    (h : ∀ j, j < a.length → a.getD j 0 = b.getD j 0) : a = b := by
  apply List.ext_getElem hlen
  intro j h1 h2
  have := h j h1
  simpa [List.getD_eq_getElem?_getD, List.getElem?_eq_getElem h1,
    List.getElem?_eq_getElem h2] using this

@[simp] theorem length_tabulate (n : Nat) (f : Nat → ℚ) : (tabulate n f).length = n := by
  simp [tabulate]

theorem getD_tabulate (n : Nat) (f : Nat → ℚ) (j : Nat) (h : j < n) :
    (tabulate n f).getD j 0 = f j := by
  simp [tabulate, List.getD_eq_getElem?_getD, h]

theorem eq_tabulate (a : List ℚ) (n : Nat) (f : Nat → ℚ) (hlen : a.length = n)
    (h : ∀ j, j < n → a.getD j 0 = f j) : a = tabulate n f := by
  apply ext_getD
  · simp [hlen]
  · intro j hj
    rw [getD_tabulate n f j (by omega)]
    exact h j (by omega)

/-! ## The loop rule -/

theorem forLoopAux_inv {σ ε : Type} (body : Int → σ → Except ε σ) (hi step : Int)
    (hstep : 0 < step) (Inv : Int → σ → Prop)
    (hbody : ∀ i s, i < hi → Inv i s → ∃ s', body i s = .ok s' ∧ Inv (i + step) s') :
    ∀ (d : Nat) (i : Int) (s : σ), (hi - i).toNat ≤ d → Inv i s →
      ∃ i' s', forLoopAux body hi step d i s = .ok s' ∧ hi ≤ i' ∧ Inv i' s' := by
  intro d
  induction d with
  | zero =>
    intro i s hd hinv
    exact ⟨i, s, rfl, by omega, hinv⟩
  | succ d ih =>
    intro i s hd hinv
    by_cases hlt : i < hi
    · obtain ⟨s', hs', hinv'⟩ := hbody i s hlt hinv
      obtain ⟨i', s'', h1, h2, h3⟩ := ih (i + step) s' (by omega) hinv'
      refine ⟨i', s'', ?_, h2, h3⟩
      simp only [forLoopAux, if_pos hlt, hs', h1]
    · refine ⟨i, s, ?_, by omega, hinv⟩
      simp only [forLoopAux, if_neg hlt]

/-- The iteration bound never ends a loop early: with `step ≥ 1`, any two bounds of at
least `hi - i` give the same result. -/
theorem forLoopAux_bound_irrelevant {σ ε : Type} (body : Int → σ → Except ε σ) (hi step : Int)
    (hstep : 0 < step) :
    ∀ (d d' : Nat) (i : Int) (s : σ), (hi - i).toNat ≤ d → (hi - i).toNat ≤ d' →
      forLoopAux body hi step d i s = forLoopAux body hi step d' i s := by
  intro d
  induction d with
  | zero =>
    intro d' i s hd _
    cases d' with
    | zero => rfl
    | succ d' => simp only [forLoopAux, if_neg (show ¬ i < hi by omega)]
  | succ d ih =>
    intro d' i s hd hd'
    cases d' with
    | zero => simp only [forLoopAux, if_neg (show ¬ i < hi by omega)]
    | succ d' =>
      by_cases hlt : i < hi
      · simp only [forLoopAux, if_pos hlt]
        cases body i s with
        | error e => rfl
        | ok s' => exact ih d' (i + step) s' (by omega) (by omega)
      · simp only [forLoopAux, if_neg hlt]

theorem forLoop_inv {σ ε : Type} (body : Int → σ → Except ε σ) (lo hi step : Int)
    (hstep : 0 < step) (Inv : Int → σ → Prop) (s : σ) (h0 : Inv lo s)
    (hbody : ∀ i s, i < hi → Inv i s → ∃ s', body i s = .ok s' ∧ Inv (i + step) s') :
    ∃ i' s', forLoop lo hi step body s = .ok s' ∧ hi ≤ i' ∧ Inv i' s' :=
  forLoopAux_inv body hi step hstep Inv hbody _ lo s (le_refl _) h0

/-- A loop whose condition is false at the start runs no iteration, whatever its body. -/
theorem forLoop_zero {σ ε : Type} (body : Int → σ → Except ε σ) (lo hi step : Int)
    (h : hi ≤ lo) (s : σ) : forLoop lo hi step body s = .ok s := by
  have : (hi - lo).toNat = 0 := by omega
  simp [forLoop, this, forLoopAux]

/-! ## The loop bodies, in bounds -/

theorem liftAt_ok (c : ℚ) (s : List ℚ) (i : Int) (h1 : 1 ≤ i) (h2 : i + 1 < s.length) :
    liftAt c i s = .ok (s.set i.toNat
      (s.getD i.toNat 0 + c * (s.getD (i.toNat - 1) 0 + s.getD (i.toNat + 1) 0))) := by
  have e1 : (i - 1).toNat = i.toNat - 1 := by omega
  have e2 : (i + 1).toNat = i.toNat + 1 := by omega
  simp only [liftAt, idx_ok s i (by omega) (by omega), idx_ok s (i - 1) (by omega) (by omega),
    idx_ok s (i + 1) (by omega) (by omega), upd_ok s i _ (by omega) (by omega), orPanic, e1, e2,
    bind, Except.bind]

theorem edgeAt_ok (c : ℚ) (s : List ℚ) (i j : Int) (hi0 : 0 ≤ i) (hi1 : i < s.length)
    (hj0 : 0 ≤ j) (hj1 : j < s.length) :
    edgeAt c i j s = .ok (s.set i.toNat (s.getD i.toNat 0 + 2 * c * s.getD j.toNat 0)) := by
  simp only [edgeAt, idx_ok s i hi0 hi1, idx_ok s j hj0 hj1, upd_ok s i _ hi0 hi1, orPanic,
    bind, Except.bind]

theorem scaleAt_ok (c : ℚ) (s : List ℚ) (i : Int) (h0 : 0 ≤ i) (h1 : i < s.length) :
    scaleAt c i s = .ok (s.set i.toNat
      (if i.toNat % 2 = 1 then s.getD i.toNat 0 * c else s.getD i.toNat 0 / c)) := by
  have hm : Int.tmod i 2 = i % 2 := Int.tmod_eq_emod h0 (by decide)
  by_cases hp : i.toNat % 2 = 1
  · have : ¬ i % 2 = 0 := by omega
    simp only [scaleAt, hm, ne_eq, this, not_false_eq_true, if_true, idx_ok s i h0 h1,
      upd_ok s i _ h0 h1, orPanic, bind, Except.bind, hp]
  · have : i % 2 = 0 := by omega
    simp only [scaleAt, hm, ne_eq, this, not_true_eq_false, if_false, idx_ok s i h0 h1,
      upd_ok s i _ h0 h1, orPanic, bind, Except.bind, hp]

theorem packAt_ok (n : Int) (xn tb : List ℚ) (i : Int) (hn : 0 ≤ n) (h0 : 0 ≤ i)
    (h1 : i < xn.length)
    (h2 : (if i.toNat % 2 = 0 then i.toNat / 2 else n.toNat / 2 + i.toNat / 2) < tb.length) :
    packAt n xn i tb = .ok (tb.set
      (if i.toNat % 2 = 0 then i.toNat / 2 else n.toNat / 2 + i.toNat / 2)
      (xn.getD i.toNat 0)) := by
  have hm : Int.tmod i 2 = i % 2 := Int.tmod_eq_emod h0 (by decide)
  have hd : Int.tdiv i 2 = i / 2 := Int.tdiv_eq_ediv h0 (by decide)
  have hdn : Int.tdiv n 2 = n / 2 := Int.tdiv_eq_ediv hn (by decide)
  by_cases hp : i.toNat % 2 = 0
  · have : i % 2 = 0 := by omega
    rw [if_pos hp] at h2
    have e : (i / 2).toNat = i.toNat / 2 := by omega
    simp only [packAt, hm, hd, this, if_true, idx_ok xn i h0 h1,
      upd_ok tb (i / 2) _ (by omega) (by omega), orPanic, bind, Except.bind, hp, e]
  · have : ¬ i % 2 = 0 := by omega
    rw [if_neg hp] at h2
    have e : (n / 2 + i / 2).toNat = n.toNat / 2 + i.toNat / 2 := by omega
    simp only [packAt, hm, hd, hdn, this, if_false, idx_ok xn i h0 h1,
      upd_ok tb (n / 2 + i / 2) _ (by omega) (by omega), orPanic, bind, Except.bind, hp, e]

theorem unpackAt_ok (n : Int) (xn tb : List ℚ) (i : Int) (hn : 0 ≤ n) (h0 : 0 ≤ i)
    (h1 : i + n / 2 < xn.length) (h2 : i * 2 + 1 < tb.length) :
    unpackAt n xn i tb = .ok ((tb.set (i.toNat * 2) (xn.getD i.toNat 0)).set
      (i.toNat * 2 + 1) (xn.getD (i.toNat + n.toNat / 2) 0)) := by
  have hdn : Int.tdiv n 2 = n / 2 := Int.tdiv_eq_ediv hn (by decide)
  have e1 : (i * 2).toNat = i.toNat * 2 := by omega
  have e2 : (i * 2 + 1).toNat = i.toNat * 2 + 1 := by omega
  have e3 : (i + n / 2).toNat = i.toNat + n.toNat / 2 := by omega
  have hl : (i * 2 + 1 : Int) < ((tb.set (i.toNat * 2) (xn.getD i.toNat 0)).length : Int) := by
    simpa using h2
  simp only [unpackAt, hdn, idx_ok xn i h0 (by omega), upd_ok tb (i * 2) _ (by omega) (by omega),
    idx_ok xn (i + n / 2) (by omega) h1, orPanic, bind, Except.bind, e1, e2, e3,
    upd_ok _ (i * 2 + 1) _ (by omega) hl]

/-! ## What the lifting loop computes -/

theorem liftLoop_spec (c : ℚ) (xn : List ℚ) (lo hi : Int) (hlo : 1 ≤ lo)
    (hhi : ∀ i : Int, lo ≤ i → i < hi → (i - lo) % 2 = 0 → i + 1 < xn.length) :
    ∃ ys, forLoop lo hi 2 (liftAt c) xn = .ok ys ∧ ys.length = xn.length ∧
      ∀ j : Nat, ys.getD j 0 =
        if lo ≤ (j : Int) ∧ (j : Int) < hi ∧ ((j : Int) - lo) % 2 = 0 then
          xn.getD j 0 + c * (xn.getD (j - 1) 0 + xn.getD (j + 1) 0)
        else xn.getD j 0 := by
  obtain ⟨i', ys, h1, h2, h3, h4, h5, h6⟩ := forLoop_inv (liftAt c) lo hi 2 (by decide)
    (fun i s => lo ≤ i ∧ (i - lo) % 2 = 0 ∧ s.length = xn.length ∧
      ∀ j : Nat, s.getD j 0 =
        if lo ≤ (j : Int) ∧ (j : Int) < i ∧ (j : Int) < hi ∧ ((j : Int) - lo) % 2 = 0 then
          xn.getD j 0 + c * (xn.getD (j - 1) 0 + xn.getD (j + 1) 0)
        else xn.getD j 0) xn
    ⟨le_refl _, by simp, rfl, fun j => by rw [if_neg]; omega⟩
    (by
      intro i s hlt ⟨hl, hpar, hlen, hs⟩
      have hb : i + 1 < s.length := by
        have := hhi i hl hlt hpar
        omega
      refine ⟨_, liftAt_ok c s i (by omega) hb, by omega, by omega, by simp [hlen], ?_⟩
      intro j
      rw [getD_set _ _ _ _ (by omega)]
      by_cases hj : j = i.toNat
      · rw [if_pos hj, hs i.toNat, hs (i.toNat - 1), hs (i.toNat + 1), if_neg (by omega),
          if_neg (by omega), if_neg (by omega), if_pos (by omega), hj]
      · rw [if_neg hj, hs j]
        by_cases hc : lo ≤ (j : Int) ∧ (j : Int) < i ∧ (j : Int) < hi ∧ ((j : Int) - lo) % 2 = 0
        · rw [if_pos hc, if_pos (by omega)]
        · rw [if_neg hc, if_neg (by omega)])
  refine ⟨ys, h1, h5, fun j => ?_⟩
  rw [h6 j]
  by_cases hc : lo ≤ (j : Int) ∧ (j : Int) < hi ∧ ((j : Int) - lo) % 2 = 0
  · rw [if_pos hc, if_pos (by omega)]
  · rw [if_neg hc, if_neg (by omega)]

theorem getD_replicate_zero (n k : Nat) : (List.replicate n (0 : ℚ)).getD k 0 = 0 := by
  simp only [List.getD_eq_getElem?_getD, List.getElem?_replicate]
  split_ifs <;> rfl

theorem scaleLoop_spec (c : ℚ) (xn : List ℚ) :
    ∃ ys, forLoop 0 (xn.length : Int) 1 (scaleAt c) xn = .ok ys ∧ ys.length = xn.length ∧
      ∀ j : Nat, j < xn.length →
        ys.getD j 0 = if j % 2 = 1 then xn.getD j 0 * c else xn.getD j 0 / c := by
  obtain ⟨i', ys, h1, h2, h3, h4, h5⟩ := forLoop_inv (scaleAt c) 0 (xn.length : Int) 1
    (by decide)
    (fun i s => 0 ≤ i ∧ s.length = xn.length ∧
      ∀ j : Nat, s.getD j 0 =
        if (j : Int) < i ∧ j < xn.length then
          (if j % 2 = 1 then xn.getD j 0 * c else xn.getD j 0 / c)
        else xn.getD j 0) xn
    ⟨le_refl _, rfl, fun j => (if_neg (by omega)).symm⟩
    (by
      intro i s hlt ⟨hl, hlen, hs⟩
      refine ⟨_, scaleAt_ok c s i hl (by omega), by omega, by simp [hlen], ?_⟩
      intro j
      rw [getD_set _ _ _ _ (by omega)]
      by_cases hj : j = i.toNat
      · have hv : s.getD i.toNat 0 = xn.getD i.toNat 0 := (hs i.toNat).trans (if_neg (by omega))
        rw [if_pos hj, hv, ← hj]
        exact (if_pos (by omega)).symm
      · rw [if_neg hj, hs j]
        by_cases hc : (j : Int) < i ∧ j < xn.length
        · exact (if_pos hc).trans (if_pos (by omega)).symm
        · exact (if_neg hc).trans (if_neg (by omega)).symm)
  refine ⟨ys, h1, h4, fun j hj => ?_⟩
  exact (h5 j).trans (if_pos (by omega))

theorem packLoop_spec (xn : List ℚ) (heven : xn.length % 2 = 0) :
    ∃ tb, forLoop 0 (xn.length : Int) 1 (packAt (xn.length : Int) xn)
        (List.replicate xn.length 0) = .ok tb ∧ tb.length = xn.length ∧
      ∀ k : Nat, k < xn.length →
        tb.getD k 0 = if k < xn.length / 2 then xn.getD (2 * k) 0
          else xn.getD (2 * (k - xn.length / 2) + 1) 0 := by
  obtain ⟨i', tb, h1, h2, h3, h4, h5⟩ := forLoop_inv (packAt (xn.length : Int) xn) 0
    (xn.length : Int) 1 (by decide)
    (fun i s => 0 ≤ i ∧ s.length = xn.length ∧
      ∀ k : Nat, s.getD k 0 =
        if (if k < xn.length / 2 then (2 * k : Int) < i
            else (2 * (k - xn.length / 2) + 1 : Nat) < i ∧ k < xn.length) then
          (if k < xn.length / 2 then xn.getD (2 * k) 0
            else xn.getD (2 * (k - xn.length / 2) + 1) 0)
        else 0) (List.replicate xn.length 0)
    ⟨le_refl _, by simp, fun k => by
      rw [getD_replicate_zero]
      exact (if_neg (by split_ifs <;> omega)).symm⟩
    (by
      intro i s hlt ⟨hl, hlen, hs⟩
      have hb : (if i.toNat % 2 = 0 then i.toNat / 2 else
          ((xn.length : Int)).toNat / 2 + i.toNat / 2) < s.length := by
        split_ifs <;> omega
      refine ⟨_, packAt_ok _ xn s i (by omega) hl hlt hb, by omega, by simp [hlen], ?_⟩
      intro k
      rw [getD_set _ _ _ _ hb, hs k]
      by_cases hk : k = (if i.toNat % 2 = 0 then i.toNat / 2 else
          ((xn.length : Int)).toNat / 2 + i.toNat / 2)
      · rw [if_pos hk]
        have e : i.toNat = (if k < xn.length / 2 then 2 * k
            else 2 * (k - xn.length / 2) + 1) := by
          split_ifs at hk ⊢ <;> omega
        have hc : (if k < xn.length / 2 then (2 * k : Int) < i + 1
            else (2 * (k - xn.length / 2) + 1 : Nat) < i + 1 ∧ k < xn.length) := by
          split_ifs at hk ⊢ <;> omega
        rw [if_pos hc, e]
        split_ifs <;> rfl
      · rw [if_neg hk]
        have hiff : (if k < xn.length / 2 then (2 * k : Int) < i
            else (2 * (k - xn.length / 2) + 1 : Nat) < i ∧ k < xn.length) ↔
            (if k < xn.length / 2 then (2 * k : Int) < i + 1
            else (2 * (k - xn.length / 2) + 1 : Nat) < i + 1 ∧ k < xn.length) := by
          split_ifs at hk ⊢ <;> omega
        simp only [hiff])
  refine ⟨tb, h1, h4, fun k hk => ?_⟩
  exact (h5 k).trans (if_pos (by split_ifs <;> omega))

theorem unpackLoop_spec (xn : List ℚ) (heven : xn.length % 2 = 0) :
    ∃ tb, forLoop 0 (Int.tdiv (xn.length : Int) 2) 1 (unpackAt (xn.length : Int) xn)
        (List.replicate xn.length 0) = .ok tb ∧ tb.length = xn.length ∧
      ∀ j : Nat, j < xn.length →
        tb.getD j 0 = if j % 2 = 0 then xn.getD (j / 2) 0
          else xn.getD (j / 2 + xn.length / 2) 0 := by
  have hdn : Int.tdiv (xn.length : Int) 2 = (xn.length : Int) / 2 :=
    Int.tdiv_eq_ediv (by omega) (by decide)
  rw [hdn]
  obtain ⟨i', tb, h1, h2, h3, h4, h5⟩ := forLoop_inv (unpackAt (xn.length : Int) xn) 0
    ((xn.length : Int) / 2) 1 (by decide)
    (fun i s => 0 ≤ i ∧ s.length = xn.length ∧
      ∀ j : Nat, s.getD j 0 =
        if (j : Int) < 2 * i ∧ j < xn.length then
          (if j % 2 = 0 then xn.getD (j / 2) 0 else xn.getD (j / 2 + xn.length / 2) 0)
        else 0) (List.replicate xn.length 0)
    ⟨le_refl _, by simp, fun k => by
      rw [getD_replicate_zero]
      exact (if_neg (by omega)).symm⟩
    (by
      intro i s hlt ⟨hl, hlen, hs⟩
      refine ⟨_, unpackAt_ok _ xn s i (by omega) hl (by omega) (by omega), by omega,
        by simp [hlen], ?_⟩
      intro j
      rw [getD_set _ _ _ _ (by simp; omega), getD_set _ _ _ _ (by omega), hs j]
      by_cases hj1 : j = i.toNat * 2 + 1
      · have e : i.toNat + ((xn.length : Int)).toNat / 2 = j / 2 + xn.length / 2 := by omega
        rw [if_pos hj1, e]
        exact ((if_pos (by omega)).trans (if_neg (by omega))).symm
      · rw [if_neg hj1]
        by_cases hj0 : j = i.toNat * 2
        · have e : i.toNat = j / 2 := by omega
          rw [if_pos hj0, e]
          exact ((if_pos (by omega)).trans (if_pos (by omega))).symm
        · rw [if_neg hj0]
          by_cases hc : (j : Int) < 2 * i ∧ j < xn.length
          · exact (if_pos hc).trans (if_pos (by omega)).symm
          · exact (if_neg hc).trans (if_neg (by omega)).symm)
  refine ⟨tb, h1, h4, fun j hj => ?_⟩
  exact (h5 j).trans (if_pos (by omega))

theorem copy_same_length (dst src : List ℚ) (h : src.length = dst.length) :
    copy dst src = src := by
  simp [copy, ← h]

@[simp] theorem length_liftOdd (c : ℚ) (xn : List ℚ) : (liftOdd c xn).length = xn.length := by
  simp [liftOdd]

@[simp] theorem length_liftEven (c : ℚ) (xn : List ℚ) :
    (liftEven c xn).length = xn.length := by
  simp [liftEven]

@[simp] theorem length_scaleBy (s : ℚ) (xn : List ℚ) : (scaleBy s xn).length = xn.length := by
  simp [scaleBy]

@[simp] theorem length_deinterleave (xn : List ℚ) : (deinterleave xn).length = xn.length := by
  simp [deinterleave]

@[simp] theorem length_interleave (xn : List ℚ) : (interleave xn).length = xn.length := by
  simp [interleave]

/-- The odd lifting section (loop, then the statement for the last position). -/
theorem oddStage_eq (c : ℚ) (xn : List ℚ) (heven : xn.length % 2 = 0) (h2 : 2 ≤ xn.length) :
    (forLoop 1 ((xn.length : Int) - 2) 2 (liftAt c) xn >>= fun ys =>
      edgeAt c ((xn.length : Int) - 1) ((xn.length : Int) - 2) ys) = .ok (liftOdd c xn) := by
  obtain ⟨ys, h1, hl, hg⟩ := liftLoop_spec c xn 1 ((xn.length : Int) - 2) (by decide)
    (fun i _ _ _ => by omega)
  have e1 : ((xn.length : Int) - 1).toNat = xn.length - 1 := by omega
  have e2 : ((xn.length : Int) - 2).toNat = xn.length - 2 := by omega
  have hv1 : ys.getD (xn.length - 1) 0 = xn.getD (xn.length - 1) 0 :=
    (hg _).trans (if_neg (by omega))
  have hv2 : ys.getD (xn.length - 2) 0 = xn.getD (xn.length - 2) 0 :=
    (hg _).trans (if_neg (by omega))
  rw [h1]
  simp only [bind, Except.bind]
  rw [edgeAt_ok c ys _ _ (by omega) (by omega) (by omega) (by omega), e1, e2, hv1, hv2]
  congr 1
  apply eq_tabulate _ _ _ (by simp [hl])
  intro j hj
  rw [getD_set _ _ _ _ (by omega)]
  by_cases hj1 : j = xn.length - 1
  · have e3 : xn.length - 2 = j - 1 := by omega
    rw [if_pos hj1, if_pos (by omega), if_neg (by omega), e3, hj1]
  · rw [if_neg hj1, hg j]
    by_cases hp : j % 2 = 1
    · rw [if_pos hp, if_pos (by omega), if_pos (by omega)]
    · rw [if_neg hp]
      exact if_neg (by omega)

/-- The even lifting section (loop, then the statement for position `0`). -/
theorem evenStage_eq (c : ℚ) (xn : List ℚ) (heven : xn.length % 2 = 0) (h2 : 2 ≤ xn.length) :
    (forLoop 2 (xn.length : Int) 2 (liftAt c) xn >>= fun ys => edgeAt c 0 1 ys) =
      .ok (liftEven c xn) := by
  obtain ⟨ys, h1, hl, hg⟩ := liftLoop_spec c xn 2 (xn.length : Int) (by decide)
    (fun i _ _ _ => by omega)
  have hv0 : ys.getD 0 0 = xn.getD 0 0 := (hg _).trans (if_neg (by omega))
  have hv1 : ys.getD 1 0 = xn.getD 1 0 := (hg _).trans (if_neg (by omega))
  rw [h1]
  simp only [bind, Except.bind]
  rw [edgeAt_ok c ys 0 1 (by omega) (by omega) (by omega) (by omega)]
  simp only [Int.toNat_zero, Int.toNat_one]
  rw [hv0, hv1]
  congr 1
  apply eq_tabulate _ _ _ (by simp [hl])
  intro j hj
  rw [getD_set _ _ _ _ (by omega)]
  by_cases hj0 : j = 0
  · rw [if_pos hj0, if_pos (by omega), if_pos hj0]
  · rw [if_neg hj0, hg j]
    by_cases hp : j % 2 = 0
    · rw [if_pos hp, if_neg hj0, if_pos (by omega)]
    · rw [if_neg hp]
      exact if_neg (by omega)

theorem scaleStage_eq (c : ℚ) (xn : List ℚ) :
    forLoop 0 (xn.length : Int) 1 (scaleAt c) xn = .ok (scaleBy c xn) := by
  obtain ⟨ys, h1, hl, hg⟩ := scaleLoop_spec c xn
  rw [h1]
  congr 1
  exact eq_tabulate _ _ _ hl hg

theorem Fwt53_pack_eq (xn : List ℚ) (heven : xn.length % 2 = 0) :
    Fwt53_pack (xn.length : Int) xn = .ok (deinterleave xn) := by
  obtain ⟨tb, h1, hl, hg⟩ := packLoop_spec xn heven
  unfold Fwt53_pack
  rw [Int.toNat_ofNat, h1]
  simp only [bind, Except.bind, pure, Except.pure]
  rw [copy_same_length _ _ hl]
  congr 1
  exact eq_tabulate _ _ _ hl hg

theorem Iwt53_unpack_eq (xn : List ℚ) (heven : xn.length % 2 = 0) :
    Iwt53_unpack (xn.length : Int) xn = .ok (interleave xn) := by
  obtain ⟨tb, h1, hl, hg⟩ := unpackLoop_spec xn heven
  unfold Iwt53_unpack
  rw [Int.toNat_ofNat, h1]
  simp only [bind, Except.bind, pure, Except.pure]
  rw [copy_same_length _ _ hl]
  congr 1
  exact eq_tabulate _ _ _ hl hg

theorem Fwt53_predict1_eq (xn : List ℚ) (heven : xn.length % 2 = 0) (h2 : 2 ≤ xn.length) :
    Fwt53_predict1 (xn.length : Int) xn = .ok (liftOdd p1_53 xn) :=
  oddStage_eq p1_53 xn heven h2

theorem Fwt53_update1_eq (xn : List ℚ) (heven : xn.length % 2 = 0) (h2 : 2 ≤ xn.length) :
    Fwt53_update1 (xn.length : Int) xn = .ok (liftEven u1_53 xn) :=
  evenStage_eq u1_53 xn heven h2

theorem Fwt53_scale_eq (xn : List ℚ) :
    Fwt53_scale (xn.length : Int) xn = .ok (scaleBy scale53 xn) :=
  scaleStage_eq scale53 xn

theorem Iwt53_unscale_eq (xn : List ℚ) :
    Iwt53_unscale (xn.length : Int) xn = .ok (scaleBy iscale53 xn) :=
  scaleStage_eq iscale53 xn

theorem Iwt53_unupdate1_eq (xn : List ℚ) (heven : xn.length % 2 = 0) (h2 : 2 ≤ xn.length) :
    Iwt53_unupdate1 (xn.length : Int) xn = .ok (liftEven iu1_53 xn) :=
  evenStage_eq iu1_53 xn heven h2

theorem Iwt53_unpredict1_eq (xn : List ℚ) (heven : xn.length % 2 = 0) (h2 : 2 ≤ xn.length) :
    Iwt53_unpredict1 (xn.length : Int) xn = .ok (liftOdd ip1_53 xn) :=
  oddStage_eq ip1_53 xn heven h2

/-! ## Length validation -/

theorem isPow2_iff (n : Nat) : isPow2 n ↔ ∃ k, n = 2 ^ k := by
  constructor
  · rintro ⟨k, _, h⟩
    exact ⟨k, h⟩
  · rintro ⟨k, h⟩
    exact ⟨k, by rw [h]; exact Nat.lt_two_pow k, h⟩

theorem isPow2_even (n : Nat) (h : isPow2 n) (h2 : 2 ≤ n) : n % 2 = 0 := by
  obtain ⟨k, _, hk⟩ := h
  cases k with
  | zero => simp at hk; omega
  | succ k => rw [hk, pow_succ]; omega

theorem validateLen_ok (xn : List ℚ) (h : isPow2 xn.length) :
    validateLen xn = .ok (xn.length : Int) := by
  simp [validateLen, h]

theorem validateLen_error (xn : List ℚ) (h : ¬ isPow2 xn.length) :
    validateLen xn = .error ⟨Err.invalidLength, xn⟩ := by
  simp [validateLen, h]

/-! ## The two transforms as compositions of the stage functions -/

theorem Fwt53_eq (xn : List ℚ) (h : isPow2 xn.length) (h2 : 2 ≤ xn.length) :
    Fwt53 xn = .ok (deinterleave (scaleBy scale53 (liftEven u1_53 (liftOdd p1_53 xn)))) := by
  have heven := isPow2_even _ h h2
  have a1 := Fwt53_predict1_eq xn heven h2
  have a2 := Fwt53_update1_eq (liftOdd p1_53 xn) (by simpa using heven) (by simpa using h2)
  have a3 := Fwt53_scale_eq (liftEven u1_53 (liftOdd p1_53 xn))
  have a4 := Fwt53_pack_eq (scaleBy scale53 (liftEven u1_53 (liftOdd p1_53 xn)))
    (by simpa using heven)
  simp only [length_liftOdd, length_liftEven, length_scaleBy] at a2 a3 a4
  simp only [Fwt53, validateLen_ok xn h, bind, Except.bind, a1, a2, a3, a4]

theorem Iwt53_eq (xn : List ℚ) (h : isPow2 xn.length) (h2 : 2 ≤ xn.length) :
    Iwt53 xn = .ok (liftOdd ip1_53 (liftEven iu1_53 (scaleBy iscale53 (interleave xn)))) := by
  have heven := isPow2_even _ h h2
  have a1 := Iwt53_unpack_eq xn heven
  have a2 := Iwt53_unscale_eq (interleave xn)
  have a3 := Iwt53_unupdate1_eq (scaleBy iscale53 (interleave xn)) (by simpa using heven)
    (by simpa using h2)
  have a4 := Iwt53_unpredict1_eq (liftEven iu1_53 (scaleBy iscale53 (interleave xn)))
    (by simpa using heven) (by simpa using h2)
  simp only [length_liftEven, length_scaleBy, length_interleave] at a2 a3 a4
  simp only [Iwt53, validateLen_ok xn h, bind, Except.bind, a1, a2, a3, a4]

/-! ## Entries of the stage functions -/

theorem getD_liftOdd (c : ℚ) (xn : List ℚ) (j : Nat) (h : j < xn.length) :
    (liftOdd c xn).getD j 0 =
      if j % 2 = 1 then
        if j + 2 < xn.length then xn.getD j 0 + c * (xn.getD (j - 1) 0 + xn.getD (j + 1) 0)
        else xn.getD j 0 + 2 * c * xn.getD (j - 1) 0
      else xn.getD j 0 :=
  getD_tabulate _ _ j h

theorem getD_liftEven (c : ℚ) (xn : List ℚ) (j : Nat) (h : j < xn.length) :
    (liftEven c xn).getD j 0 =
      if j % 2 = 0 then
        if j = 0 then xn.getD 0 0 + 2 * c * xn.getD 1 0
        else xn.getD j 0 + c * (xn.getD (j - 1) 0 + xn.getD (j + 1) 0)
      else xn.getD j 0 :=
  getD_tabulate _ _ j h

theorem getD_scaleBy (s : ℚ) (xn : List ℚ) (j : Nat) (h : j < xn.length) :
    (scaleBy s xn).getD j 0 = if j % 2 = 1 then xn.getD j 0 * s else xn.getD j 0 / s :=
  getD_tabulate _ _ j h

theorem getD_deinterleave (xn : List ℚ) (k : Nat) (h : k < xn.length) :
    (deinterleave xn).getD k 0 =
      if k < xn.length / 2 then xn.getD (2 * k) 0
      else xn.getD (2 * (k - xn.length / 2) + 1) 0 :=
  getD_tabulate _ _ k h

theorem getD_interleave (xn : List ℚ) (j : Nat) (h : j < xn.length) :
    (interleave xn).getD j 0 =
      if j % 2 = 0 then xn.getD (j / 2) 0 else xn.getD (j / 2 + xn.length / 2) 0 :=
  getD_tabulate _ _ j h

/-! ## Each inverse stage undoes its forward stage -/

theorem interleave_deinterleave (v : List ℚ) (heven : v.length % 2 = 0) :
    interleave (deinterleave v) = v := by
  apply ext_getD _ _ (by simp)
  intro j hj
  simp only [length_interleave, length_deinterleave] at hj
  rw [getD_interleave _ j (by simpa using hj)]
  simp only [length_deinterleave]
  by_cases hp : j % 2 = 0
  · rw [if_pos hp, getD_deinterleave _ _ (by omega), if_pos (by omega)]
    congr 1
    omega
  · rw [if_neg hp, getD_deinterleave _ _ (by omega), if_neg (by omega)]
    congr 1
    omega

theorem deinterleave_interleave (w : List ℚ) (heven : w.length % 2 = 0) :
    deinterleave (interleave w) = w := by
  apply ext_getD _ _ (by simp)
  intro k hk
  simp only [length_interleave, length_deinterleave] at hk
  rw [getD_deinterleave _ k (by simpa using hk)]
  simp only [length_interleave]
  by_cases hp : k < w.length / 2
  · rw [if_pos hp, getD_interleave _ _ (by omega), if_pos (by omega)]
    congr 1
    omega
  · rw [if_neg hp, getD_interleave _ _ (by omega), if_neg (by omega)]
    congr 1
    omega

theorem scaleBy_inv (s : ℚ) (hs : s ≠ 0) (v : List ℚ) : scaleBy (1 / s) (scaleBy s v) = v := by
  apply ext_getD _ _ (by simp)
  intro j hj
  simp only [length_scaleBy] at hj
  rw [getD_scaleBy _ _ j (by simpa using hj), getD_scaleBy _ _ j hj]
  by_cases hp : j % 2 = 1
  · rw [if_pos hp, if_pos hp]
    field_simp
  · rw [if_neg hp, if_neg hp]
    field_simp

theorem liftEven_neg (c : ℚ) (v : List ℚ) (heven : v.length % 2 = 0) (h2 : 2 ≤ v.length) :
    liftEven (-c) (liftEven c v) = v := by
  apply ext_getD _ _ (by simp)
  intro j hj
  simp only [length_liftEven] at hj
  rw [getD_liftEven _ _ j (by simpa using hj)]
  by_cases hp : j % 2 = 0
  · rw [if_pos hp]
    by_cases h0 : j = 0
    · rw [if_pos h0, getD_liftEven _ _ 0 (by omega), getD_liftEven _ _ 1 (by omega),
        if_pos (by omega), if_pos rfl, if_neg (by omega), h0]
      ring
    · rw [if_neg h0, getD_liftEven _ _ j hj, getD_liftEven _ _ (j - 1) (by omega),
        getD_liftEven _ _ (j + 1) (by omega), if_pos hp, if_neg h0, if_neg (by omega),
        if_neg (by omega)]
      ring
  · rw [if_neg hp, getD_liftEven _ _ j hj, if_neg hp]

theorem liftOdd_neg (c : ℚ) (v : List ℚ) (heven : v.length % 2 = 0) :
    liftOdd (-c) (liftOdd c v) = v := by
  apply ext_getD _ _ (by simp)
  intro j hj
  simp only [length_liftOdd] at hj
  rw [getD_liftOdd _ _ j (by simpa using hj)]
  simp only [length_liftOdd]
  by_cases hp : j % 2 = 1
  · rw [if_pos hp]
    by_cases h0 : j + 2 < v.length
    · rw [if_pos h0, getD_liftOdd _ _ j hj, getD_liftOdd _ _ (j - 1) (by omega),
        getD_liftOdd _ _ (j + 1) (by omega), if_pos hp, if_pos h0, if_neg (by omega),
        if_neg (by omega)]
      ring
    · rw [if_neg h0, getD_liftOdd _ _ j hj, getD_liftOdd _ _ (j - 1) (by omega),
        if_pos hp, if_neg h0, if_neg (by omega)]
      ring
  · rw [if_neg hp, getD_liftOdd _ _ j hj, if_neg hp]

theorem scale53_ne_zero : scale53 ≠ 0 := by
  unfold scale53
  norm_num

theorem isPow2_of_exists (n : Nat) (h : ∃ k, n = 2 ^ k) : isPow2 n := (isPow2_iff n).2 h

/-! ## Round trip -/

theorem roundtrip_core (xn : List ℚ) (hp : isPow2 xn.length) (h2 : 2 ≤ xn.length) :
    ∃ ys, Fwt53 xn = .ok ys ∧ Iwt53 ys = .ok xn := by
  have heven := isPow2_even _ hp h2
  refine ⟨_, Fwt53_eq xn hp h2, ?_⟩
  rw [Iwt53_eq _ (by simpa using hp) (by simpa using h2)]
  rw [interleave_deinterleave _ (by simpa using heven)]
  have e : iscale53 = 1 / scale53 := rfl
  rw [e, scaleBy_inv _ scale53_ne_zero]
  have e1 : iu1_53 = -u1_53 := rfl
  have e2 : ip1_53 = -p1_53 := rfl
  rw [e1, liftEven_neg _ _ (by simpa using heven) (by simpa using h2), e2,
    liftOdd_neg _ _ heven]

/-- C1. Round trip: for every signal `xn` whose length is a power of two and at least 2,
`Fwt53` returns a buffer on which `Iwt53` returns `xn` again, element for element
(exact arithmetic). -/
theorem Iwt53_Fwt53_roundtrip (xn : List ℚ) (hpow : ∃ k, xn.length = 2 ^ k)
    (h2 : 2 ≤ xn.length) :
    ∃ ys, Fwt53 xn = .ok ys ∧ Iwt53 ys = .ok xn :=
  roundtrip_core xn (isPow2_of_exists _ hpow) h2

theorem Iwt53_Fwt53_roundtrip_witness :
    (∃ k, [3, 1, 4, 1, 5, 9, 2, (6 : ℚ)].length = 2 ^ k) ∧
    2 ≤ [3, 1, 4, 1, 5, 9, 2, (6 : ℚ)].length ∧
    ∃ ys, Fwt53 [3, 1, 4, 1, 5, 9, 2, 6] = .ok ys ∧ Iwt53 ys = .ok [3, 1, 4, 1, 5, 9, 2, 6] :=
  ⟨⟨3, by decide⟩, by decide,
    Iwt53_Fwt53_roundtrip [3, 1, 4, 1, 5, 9, 2, 6] ⟨3, by decide⟩ (by decide)⟩

/-! ## The two bands of `Fwt53` -/

theorem getD_predicted (x : List ℚ) (heven : x.length % 2 = 0) (k : Nat)
    (hk : k < x.length / 2) : (liftOdd p1_53 x).getD (2 * k + 1) 0 = detail x k := by
  rw [getD_liftOdd _ _ _ (by omega), if_pos (by omega)]
  unfold detail
  by_cases h : k + 1 < x.length / 2
  · rw [if_pos (by omega), if_pos h]
    simp only [p1_53, Nat.add_sub_cancel]
    norm_num
    ring
  · have e1 : 2 * k + 1 = x.length - 1 := by omega
    have e2 : 2 * k + 1 - 1 = x.length - 2 := by omega
    rw [if_neg (by omega), if_neg h, e2, e1]
    simp only [p1_53]
    norm_num
    ring

theorem getD_predicted_even (x : List ℚ) (k : Nat) (hk : 2 * k < x.length) :
    (liftOdd p1_53 x).getD (2 * k) 0 = x.getD (2 * k) 0 := by
  rw [getD_liftOdd _ _ _ hk, if_neg (by omega)]

theorem getD_fwd_detail (x : List ℚ) (heven : x.length % 2 = 0) (k : Nat)
    (hk : k < x.length / 2) :
    (deinterleave (scaleBy scale53 (liftEven u1_53 (liftOdd p1_53 x)))).getD
      (x.length / 2 + k) 0 = scale53 * detail x k := by
  rw [getD_deinterleave _ _ (by simp; omega)]
  simp only [length_scaleBy, length_liftEven, length_liftOdd]
  rw [if_neg (by omega), Nat.add_sub_cancel_left, getD_scaleBy _ _ _ (by simp; omega),
    if_pos (by omega), getD_liftEven _ _ _ (by simp; omega), if_neg (by omega),
    getD_predicted x heven k hk]
  ring

theorem getD_fwd_approx (x : List ℚ) (heven : x.length % 2 = 0) (k : Nat)
    (hk : k < x.length / 2) :
    (deinterleave (scaleBy scale53 (liftEven u1_53 (liftOdd p1_53 x)))).getD k 0 =
      (if k = 0 then x.getD 0 0 + detail x 0 / 2
        else x.getD (2 * k) 0 + (detail x (k - 1) + detail x k) / 4) / scale53 := by
  rw [getD_deinterleave _ _ (by simp; omega)]
  simp only [length_scaleBy, length_liftEven, length_liftOdd]
  rw [if_pos hk, getD_scaleBy _ _ _ (by simp; omega), if_neg (by omega),
    getD_liftEven _ _ _ (by simp; omega), if_pos (by omega)]
  congr 1
  by_cases h0 : k = 0
  · subst h0
    have := getD_predicted x heven 0 hk
    have h00 := getD_predicted_even x 0 (by omega)
    simp only [Nat.mul_zero, Nat.zero_add] at this h00
    rw [if_pos rfl, if_pos rfl, this, h00]
    simp only [u1_53]
    norm_num
    ring
  · have e1 : 2 * k - 1 = 2 * (k - 1) + 1 := by omega
    rw [if_neg (by omega), if_neg h0, getD_predicted_even x k (by omega), e1,
      getD_predicted x heven (k - 1) (by omega), getD_predicted x heven k hk]
    simp only [u1_53]
    norm_num
    ring

theorem getD_replicate (n : Nat) (c : ℚ) (j : Nat) (h : j < n) :
    (List.replicate n c).getD j 0 = c := by
  simp [List.getD_eq_getElem?_getD, List.getElem?_replicate, h]

theorem detail_replicate (n : Nat) (c : ℚ) (heven : n % 2 = 0) (k : Nat)
    (hk : k < n / 2) : detail (List.replicate n c) k = 0 := by
  unfold detail
  simp only [List.length_replicate]
  split_ifs
  · rw [getD_replicate _ _ _ (by omega), getD_replicate _ _ _ (by omega),
      getD_replicate _ _ _ (by omega)]
    ring
  · rw [getD_replicate _ _ _ (by omega), getD_replicate _ _ _ (by omega)]
    ring

/-- C2. Detail band of `Fwt53`: for a signal `x` of power-of-two length `n ≥ 2`, the
second half of the output holds the detail coefficients in odd-index order:
`out[n/2 + k] = scale53 * (x[2k+1] - (x[2k] + x[2k+2]) / 2)` for `0 ≤ k < n/2 - 1`, and
`out[n-1] = scale53 * (x[n-1] - x[n-2])`. -/
theorem Fwt53_detail_band (x : List ℚ) (hpow : ∃ k, x.length = 2 ^ k) (h2 : 2 ≤ x.length) :
    ∃ out, Fwt53 x = .ok out ∧ out.length = x.length ∧
      (∀ k, k + 1 < x.length / 2 →
        out.getD (x.length / 2 + k) 0 =
          scale53 * (x.getD (2 * k + 1) 0 - (x.getD (2 * k) 0 + x.getD (2 * k + 2) 0) / 2)) ∧
      out.getD (x.length - 1) 0 =
        scale53 * (x.getD (x.length - 1) 0 - x.getD (x.length - 2) 0) := by
  have hp := isPow2_of_exists _ hpow
  have heven := isPow2_even _ hp h2
  refine ⟨_, Fwt53_eq x hp h2, by simp, ?_, ?_⟩
  · intro k hk
    rw [getD_fwd_detail x heven k (by omega), detail, if_pos hk]
  · have e : x.length - 1 = x.length / 2 + (x.length / 2 - 1) := by omega
    rw [e, getD_fwd_detail x heven _ (by omega), detail, if_neg (by omega), ← e]

/-- The signal `[1,2,3,4,5,6,7,8]` of C2: the detail band is `[0, 0, 0, scale53]`. -/
theorem Fwt53_detail_band_witness :
    (∃ k, [1, 2, 3, 4, 5, 6, 7, (8 : ℚ)].length = 2 ^ k) ∧
    2 ≤ [1, 2, 3, 4, 5, 6, 7, (8 : ℚ)].length ∧
    ∃ out, Fwt53 [1, 2, 3, 4, 5, 6, 7, 8] = .ok out ∧ out.length = 8 ∧
      out.getD 4 0 = 0 ∧ out.getD 5 0 = 0 ∧ out.getD 6 0 = 0 ∧ out.getD 7 0 = scale53 := by
  refine ⟨⟨3, by decide⟩, by decide, ?_⟩
  obtain ⟨out, h1, h2, h3, h4⟩ :=
    Fwt53_detail_band [1, 2, 3, 4, 5, 6, 7, 8] ⟨3, by decide⟩ (by decide)
  have e0 := h3 0 (by decide)
  have e1 := h3 1 (by decide)
  have e2 := h3 2 (by decide)
  simp only [List.length_cons, List.length_nil, List.getD_cons_succ, List.getD_cons_zero,
    Nat.reduceAdd, Nat.reduceMul, Nat.reduceDiv, Nat.reduceSub] at e0 e1 e2 h4
  refine ⟨out, h1, h2, ?_, ?_, ?_, ?_⟩
  · rw [e0]; norm_num
  · rw [e1]; norm_num
  · rw [e2]; norm_num
  · rw [h4]; norm_num

/-- C3. Approximation band of `Fwt53`: for a signal `x` of power-of-two length `n ≥ 2`,
with `d = detail x` the unscaled detail coefficients, the first half of the output is
`out[0] = (x[0] + d[0] / 2) / scale53` and
`out[k] = (x[2k] + (d[k-1] + d[k]) / 4) / scale53` for `1 ≤ k < n/2`. -/
theorem Fwt53_approx_band (x : List ℚ) (hpow : ∃ k, x.length = 2 ^ k) (h2 : 2 ≤ x.length) :
    ∃ out, Fwt53 x = .ok out ∧ out.length = x.length ∧
      out.getD 0 0 = (x.getD 0 0 + detail x 0 / 2) / scale53 ∧
      ∀ k, 1 ≤ k → k < x.length / 2 →
        out.getD k 0 = (x.getD (2 * k) 0 + (detail x (k - 1) + detail x k) / 4) / scale53 := by
  have hp := isPow2_of_exists _ hpow
  have heven := isPow2_even _ hp h2
  refine ⟨_, Fwt53_eq x hp h2, by simp, ?_, ?_⟩
  · rw [getD_fwd_approx x heven 0 (by omega), if_pos rfl]
  · intro k hk1 hk
    rw [getD_fwd_approx x heven k hk, if_neg (by omega)]

/-- The signal `[1,2,3,4,5,6,7,8]` of C3: the approximation band is `[1, 3, 5, 7.25]`,
each divided by `scale53`. -/
theorem Fwt53_approx_band_witness :
    (∃ k, [1, 2, 3, 4, 5, 6, 7, (8 : ℚ)].length = 2 ^ k) ∧
    2 ≤ [1, 2, 3, 4, 5, 6, 7, (8 : ℚ)].length ∧
    ∃ out, Fwt53 [1, 2, 3, 4, 5, 6, 7, 8] = .ok out ∧ out.length = 8 ∧
      out.getD 0 0 = 1 / scale53 ∧ out.getD 1 0 = 3 / scale53 ∧
      out.getD 2 0 = 5 / scale53 ∧ out.getD 3 0 = 7.25 / scale53 := by
  refine ⟨⟨3, by decide⟩, by decide, ?_⟩
  obtain ⟨out, h1, h2, h3, h4⟩ :=
    Fwt53_approx_band [1, 2, 3, 4, 5, 6, 7, 8] ⟨3, by decide⟩ (by decide)
  have e1 := h4 1 (by decide) (by decide)
  have e2 := h4 2 (by decide) (by decide)
  have e3 := h4 3 (by decide) (by decide)
  simp only [detail, List.length_cons, List.length_nil, List.getD_cons_succ,
    List.getD_cons_zero, Nat.reduceAdd, Nat.reduceMul, Nat.reduceDiv, Nat.reduceSub,
    Nat.reduceLT, if_true, if_false] at h3 e1 e2 e3
  refine ⟨out, h1, h2, ?_, ?_, ?_, ?_⟩
  · rw [h3]; norm_num
  · rw [e1]; norm_num
  · rw [e2]; norm_num
  · rw [e3]; norm_num

/-! ## Length validation comes first -/

theorem Fwt53_invalid (xn : List ℚ) (h : ¬ isPow2 xn.length) :
    Fwt53 xn = .error ⟨Err.invalidLength, xn⟩ := by
  simp only [Fwt53, validateLen_error xn h, bind, Except.bind]

theorem Iwt53_invalid (xn : List ℚ) (h : ¬ isPow2 xn.length) :
    Iwt53 xn = .error ⟨Err.invalidLength, xn⟩ := by
  simp only [Iwt53, validateLen_error xn h, bind, Except.bind]

/-- C4. Length validation is atomic: on a buffer whose length is not a positive power of
two, `Fwt53` and `Iwt53` both stop with the invalid-length error, and the buffer at that
moment is the buffer they were given. -/
theorem invalid_length_atomic (xn : List ℚ) (h : ¬ ∃ k, xn.length = 2 ^ k) :
    Fwt53 xn = .error ⟨Err.invalidLength, xn⟩ ∧ Iwt53 xn = .error ⟨Err.invalidLength, xn⟩ :=
  ⟨Fwt53_invalid xn (fun hp => h ((isPow2_iff _).1 hp)),
    Iwt53_invalid xn (fun hp => h ((isPow2_iff _).1 hp))⟩

theorem not_pow2_of_decide (n : Nat) (h : ¬ isPow2 n) : ¬ ∃ k, n = 2 ^ k :=
  fun hp => h ((isPow2_iff n).2 hp)

/-- The lengths 0, 3, 5 and 6 named by C4. -/
theorem invalid_length_atomic_witness :
    ((¬ ∃ k, ([] : List ℚ).length = 2 ^ k) ∧
      Fwt53 [] = .error ⟨Err.invalidLength, []⟩ ∧
      Iwt53 [] = .error ⟨Err.invalidLength, []⟩) ∧
    ((¬ ∃ k, [1, 2, (3 : ℚ)].length = 2 ^ k) ∧
      Fwt53 [1, 2, 3] = .error ⟨Err.invalidLength, [1, 2, 3]⟩ ∧
      Iwt53 [1, 2, 3] = .error ⟨Err.invalidLength, [1, 2, 3]⟩) ∧
    ((¬ ∃ k, [1, 2, 3, 4, (5 : ℚ)].length = 2 ^ k) ∧
      Fwt53 [1, 2, 3, 4, 5] = .error ⟨Err.invalidLength, [1, 2, 3, 4, 5]⟩ ∧
      Iwt53 [1, 2, 3, 4, 5] = .error ⟨Err.invalidLength, [1, 2, 3, 4, 5]⟩) ∧
    ((¬ ∃ k, [1, 2, 3, 4, 5, (6 : ℚ)].length = 2 ^ k) ∧
      Fwt53 [1, 2, 3, 4, 5, 6] = .error ⟨Err.invalidLength, [1, 2, 3, 4, 5, 6]⟩ ∧
      Iwt53 [1, 2, 3, 4, 5, 6] = .error ⟨Err.invalidLength, [1, 2, 3, 4, 5, 6]⟩) :=
  ⟨⟨not_pow2_of_decide _ (by decide),
      invalid_length_atomic [] (not_pow2_of_decide _ (by decide))⟩,
    ⟨not_pow2_of_decide _ (by decide),
      invalid_length_atomic [1, 2, 3] (not_pow2_of_decide _ (by decide))⟩,
    ⟨not_pow2_of_decide _ (by decide),
      invalid_length_atomic [1, 2, 3, 4, 5] (not_pow2_of_decide _ (by decide))⟩,
    ⟨not_pow2_of_decide _ (by decide),
      invalid_length_atomic [1, 2, 3, 4, 5, 6] (not_pow2_of_decide _ (by decide))⟩⟩

/-! ## Length 1 -/

/-- C5, at the one-element buffer `[x]`: `validateLen` accepts the length 1, the predict
loop runs no iteration, and the statement `xn[n-1] += 2 * p1_53 * xn[n-2]` reads
`xn[-1]`: `Fwt53` stops with an index-out-of-range panic, the buffer unchanged. -/
theorem Fwt53_length_one_panics (x : ℚ) :
    validateLen [x] = .ok 1 ∧
      forLoop 1 (1 - 2) 2 (liftAt p1_53) [x] = .ok [x] ∧
      idx [x] (1 - 2) = none ∧
      Fwt53 [x] = .error ⟨Err.indexOutOfRange, [x]⟩ := by
  have hp : isPow2 ([x] : List ℚ).length := ⟨0, by simp, by simp⟩
  have hv : validateLen [x] = .ok 1 := by simpa using validateLen_ok [x] hp
  have hl : forLoop 1 (1 - 2) 2 (liftAt p1_53) [x] = .ok [x] := forLoop_zero _ _ _ _ (by decide) _
  have hi : idx [x] (1 - 2) = none := idx_none _ _ (Or.inl (by decide))
  refine ⟨hv, hl, hi, ?_⟩
  simp only [Fwt53, hv, bind, Except.bind, Fwt53_predict1, hl, edgeAt, hi, orPanic]
  simp [idx]

/-! ## Constant signals -/

/-- C6, amended: constant signal, detail band, in exact arithmetic: for every `c` and
every power-of-two length `n ≥ 2`, `Fwt53` of `[c, ..., c]` has `0` at every position
`n/2 .. n-1`, the boundary entry `n-1` included. -/
theorem Fwt53_const_detail (c : ℚ) (n : Nat) (hpow : ∃ k, n = 2 ^ k) (h2 : 2 ≤ n) :
    ∃ out, Fwt53 (List.replicate n c) = .ok out ∧ out.length = n ∧
      ∀ j, n / 2 ≤ j → j < n → out.getD j 0 = 0 := by
  have hp : isPow2 (List.replicate n c).length := by
    simpa using isPow2_of_exists _ hpow
  have hl : (List.replicate n c).length = n := by simp
  have heven : (List.replicate n c).length % 2 = 0 := isPow2_even _ hp (by simpa using h2)
  refine ⟨_, Fwt53_eq _ hp (by simpa using h2), by simp, ?_⟩
  intro j hj1 hj2
  have e : j = (List.replicate n c).length / 2 + (j - n / 2) := by rw [hl]; omega
  rw [e, getD_fwd_detail _ heven _ (by rw [hl]; omega),
    detail_replicate n c (by rw [← hl]; exact heven) _ (by omega)]
  ring

theorem Fwt53_const_detail_witness :
    (∃ k, 4 = 2 ^ k) ∧ 2 ≤ 4 ∧
    ∃ out, Fwt53 (List.replicate 4 7) = .ok out ∧ out.length = 4 ∧
      ∀ j, 4 / 2 ≤ j → j < 4 → out.getD j 0 = 0 :=
  ⟨⟨2, by decide⟩, by decide, Fwt53_const_detail 7 4 ⟨2, by decide⟩ (by decide)⟩

/-! ## Constant signals in `float64` arithmetic -/

/-- Known facts of IEEE 754 binary64 arithmetic, as checks of the model:
`0.1 + 0.2` is `0.30000000000000004` and not `0.3`; `1 + 2^(-53)` is a tie and rounds
to the even neighbour `1`; `1 + (-1e16)` rounds to `-1e16`; the largest finite value is
`(2^53 - 1) * 2^971`, and the midpoint `2^1024 - 2^970` rounds to `+Inf`; the smallest
positive value is `2^(-1074)`, and half of it rounds to `0`; `Inf - Inf` and `0 * Inf`
are NaN, `1 / 0` is `+Inf`, and `x + (-x)` is `+0`. -/
theorem F64_examples :
    (roundNE false 1 10).add (roundNE false 2 10) =
        roundNE false 30000000000000004 100000000000000000 ∧
      (roundNE false 1 10).add (roundNE false 2 10) ≠ roundNE false 3 10 ∧
      (roundNE false 1 1).add (roundNE false 1 (2 ^ 53)) = roundNE false 1 1 ∧
      (roundNE false 1 1).add (roundNE true (10 ^ 16) 1) = roundNE true (10 ^ 16) 1 ∧
      roundNE false (2 ^ 1024 - 2 ^ 970 - 1) 1 = .fin false (2 ^ 53 - 1) 971 ∧
      roundNE false (2 ^ 1024 - 2 ^ 970) 1 = .inf false ∧
      roundNE false 1 (2 ^ 1074) = .fin false 1 (-1074) ∧
      roundNE false 1 (2 ^ 1075) = .fin false 0 (-1074) ∧
      (F64.inf false).add (.inf true) = .nan ∧
      (F64.fin false 0 (-1074)).mul (.inf false) = .nan ∧
      (roundNE false 1 1).div (.fin false 0 (-1074)) = .inf false ∧
      (roundNE false 3 1).add (roundNE true 3 1) = .fin false 0 (-1074) := by
  decide!

/-- The numerators and denominators from which the `float64` constants are rounded are
those of the exact constants. -/
theorem float_constants_agree :
    p1_53 = -(1 / 2) ∧ 2 * p1_53 = -(1 / 1) ∧ u1_53 = 1 / 4 ∧ 2 * u1_53 = 1 / 2 ∧
      scale53 = 14142135623730951 / 10000000000000000 := by
  refine ⟨?_, ?_, ?_, ?_, ?_⟩ <;> norm_num [p1_53, u1_53, scale53]

/-- The constants of `Fwt53` as `float64` values: `-0.5`, `-1`, `0.25` and `0.5` are
exact, and `scale53` is `6369051672525773 * 2^(-52)`. -/
theorem float_constants :
    p1_53F = .fin true (2 ^ 52) (-53) ∧ two_p1_53F = .fin true (2 ^ 52) (-52) ∧
      u1_53F = .fin false (2 ^ 52) (-54) ∧ two_u1_53F = .fin false (2 ^ 52) (-53) ∧
      scale53F = .fin false 6369051672525773 (-52) := by
  decide!

theorem ok_of_toOption {ε α : Type} (e : Except ε α) (a : α) (h : e.toOption = some a) :
    e = .ok a := by
  cases e with
  | error _ => simp [Except.toOption] at h
  | ok b =>
    simp only [Except.toOption, Option.some.injEq] at h
    rw [h]

/-- On the constant signal `[1, 1, 1, 1]`, where nothing overflows, `Fwt53` in `float64`
arithmetic returns a zero detail band, and `1 / scale53` rounded in the other band. -/
theorem Fwt53F_const_one :
    Fwt53F (List.replicate 4 (roundNE false 1 1)) =
      .ok [.fin false 6369051672525772 (-53), .fin false 6369051672525772 (-53),
        .fin false 0 (-1074), .fin false 0 (-1074)] :=
  ok_of_toOption _ _ (by decide!)

/-- C6 as stated fails in `float64` arithmetic at `c = 1e308`, `n = 4`. The `float64`
`1e308` is `5010420900022432 * 2^971`; in the predict loop `xn[0] + xn[2]` overflows to
`+Inf`, so `xn[1]` becomes `-Inf`, and `Fwt53` returns `[-Inf, -Inf, -Inf, 0]`: the
detail band holds `-Inf`, which is not `0`, at position `n/2 = 2`. -/
theorem Fwt53_const_detail_counterexample :
    roundNE false (10 ^ 308) 1 = F64.fin false 5010420900022432 971 ∧
    F64.add (.fin false 5010420900022432 971) (.fin false 5010420900022432 971) =
      .inf false ∧
    ∃ out, Fwt53F (List.replicate 4 (F64.fin false 5010420900022432 971)) = .ok out ∧
      out = [.inf true, .inf true, .inf true, .fin false 0 (-1074)] ∧
      out[4 / 2]? = some (F64.inf true) ∧ (F64.inf true).isZero = false :=
  ⟨by decide!, by decide!, _, ok_of_toOption _ _ (by decide!), rfl, rfl, rfl⟩

theorem const_approx_core (c : ℚ) (n : Nat) (hpow : ∃ k, n = 2 ^ k) (h2 : 2 ≤ n) :
    ∃ out, Fwt53 (List.replicate n c) = .ok out ∧ out.length = n ∧
      ∀ j, j < n / 2 → out.getD j 0 = c / scale53 := by
  have hp : isPow2 (List.replicate n c).length := by
    simpa using isPow2_of_exists _ hpow
  have hl : (List.replicate n c).length = n := by simp
  have heven : (List.replicate n c).length % 2 = 0 := isPow2_even _ hp (by simpa using h2)
  have hev : n % 2 = 0 := by rw [← hl]; exact heven
  refine ⟨_, Fwt53_eq _ hp (by simpa using h2), by simp, ?_⟩
  intro j hj
  rw [getD_fwd_approx _ heven _ (by rw [hl]; omega)]
  congr 1
  split_ifs
  · rw [detail_replicate n c hev _ (by omega), getD_replicate _ _ _ (by omega)]
    ring
  · rw [detail_replicate n c hev _ (by omega), detail_replicate n c hev _ (by omega),
      getD_replicate _ _ _ (by omega)]
    ring

/-- C7, amended: for every `c` and every power-of-two length `n ≥ 2`, `Fwt53` of
`[c, ..., c]` has `c / scale53` at every position `0 .. n/2-1` (the even positions are
divided by `scale53`, not multiplied). -/
theorem Fwt53_const_approx (c : ℚ) (n : Nat) (hpow : ∃ k, n = 2 ^ k) (h2 : 2 ≤ n) :
    ∃ out, Fwt53 (List.replicate n c) = .ok out ∧ out.length = n ∧
      ∀ j, j < n / 2 → out.getD j 0 = c / scale53 :=
  const_approx_core c n hpow h2

theorem Fwt53_const_approx_witness :
    (∃ k, 4 = 2 ^ k) ∧ 2 ≤ 4 ∧
    ∃ out, Fwt53 (List.replicate 4 7) = .ok out ∧ out.length = 4 ∧
      ∀ j, j < 4 / 2 → out.getD j 0 = 7 / scale53 :=
  ⟨⟨2, by decide⟩, by decide, Fwt53_const_approx 7 4 ⟨2, by decide⟩ (by decide)⟩

/-- C7 as stated fails at `c = 1`, `n = 2`: the first entry of `Fwt53 [1, 1]` is
`1 / scale53`, which is not `1 * scale53`. -/
theorem Fwt53_const_approx_counterexample :
    ∃ out, Fwt53 (List.replicate 2 1) = .ok out ∧ out.getD 0 0 = 1 / scale53 ∧
      out.getD 0 0 ≠ 1 * scale53 := by
  obtain ⟨out, h1, _, h3⟩ := const_approx_core 1 2 ⟨1, by decide⟩ (by decide)
  have h0 := h3 0 (by decide)
  refine ⟨out, h1, h0, ?_⟩
  rw [h0]
  unfold scale53
  norm_num

/-! ## Symmetric extension -/

theorem mirror_inside (xn : List ℚ) (i : Int) (h0 : 0 ≤ i) (h1 : i < xn.length) :
    mirror xn i = xn.getD i.toNat 0 := by
  unfold mirror
  rw [if_neg (by omega), if_neg (by omega)]

theorem mirror_right (xn : List ℚ) (h2 : 2 ≤ xn.length) :
    mirror xn (xn.length : Int) = xn.getD (xn.length - 2) 0 := by
  unfold mirror
  rw [if_neg (by omega), if_pos (le_refl _)]
  congr 1
  omega

theorem mirror_left (xn : List ℚ) : mirror xn (-1) = xn.getD 1 0 := by
  unfold mirror
  rw [if_pos (by decide)]
  rfl

theorem liftOdd_eq_predictMirrored (xn : List ℚ) (heven : xn.length % 2 = 0) :
    liftOdd p1_53 xn = predictMirrored xn := by
  apply eq_tabulate _ _ _ (by simp)
  intro j hj
  rw [getD_liftOdd _ _ j hj]
  by_cases hp : j % 2 = 1
  · have em : ((j : Int) - 1).toNat = j - 1 := by omega
    have ep : ((j : Int) + 1).toNat = j + 1 := by omega
    rw [if_pos hp, if_pos hp, mirror_inside xn ((j : Int) - 1) (by omega) (by omega), em]
    by_cases h : j + 2 < xn.length
    · rw [if_pos h, mirror_inside xn ((j : Int) + 1) (by omega) (by omega), ep]
    · have e : ((j : Int) + 1) = (xn.length : Int) := by omega
      have e' : xn.length - 2 = j - 1 := by omega
      rw [if_neg h, e, mirror_right xn (by omega), e']
      ring
  · rw [if_neg hp, if_neg hp]

theorem liftEven_eq_updateMirrored (xn : List ℚ) (heven : xn.length % 2 = 0) :
    liftEven u1_53 xn = updateMirrored xn := by
  apply eq_tabulate _ _ _ (by simp)
  intro j hj
  rw [getD_liftEven _ _ j hj]
  by_cases hp : j % 2 = 0
  · have ep : ((j : Int) + 1).toNat = j + 1 := by omega
    rw [if_pos hp, if_pos hp, mirror_inside xn ((j : Int) + 1) (by omega) (by omega), ep]
    by_cases h : j = 0
    · subst h
      have e : ((0 : Nat) : Int) - 1 = -1 := by decide
      rw [if_pos rfl, e, mirror_left]
      ring
    · have em : ((j : Int) - 1).toNat = j - 1 := by omega
      rw [if_neg h, mirror_inside xn ((j : Int) - 1) (by omega) (by omega), em]
  · rw [if_neg hp, if_neg hp]

/-- C8. Boundary handling is symmetric extension: for a signal of power-of-two length
`n ≥ 2`, the value the predict stage writes at `n-1` is the interior predict formula on
the signal mirrored at the right edge (`xn[n] := xn[n-2]`), the value the update stage
writes at `0` is the interior update formula with the left mirror (`xn[-1] := xn[1]`),
and `Fwt53` equals the transform that applies the interior formulas uniformly to the
mirrored signal. -/
theorem Fwt53_symmetric_extension (xn : List ℚ) (hpow : ∃ k, xn.length = 2 ^ k)
    (h2 : 2 ≤ xn.length) :
    mirror xn (xn.length : Int) = xn.getD (xn.length - 2) 0 ∧
    (∃ ys, Fwt53_predict1 (xn.length : Int) xn = .ok ys ∧ ys.length = xn.length ∧
      ys.getD (xn.length - 1) 0 =
        xn.getD (xn.length - 1) 0 +
          p1_53 * (xn.getD (xn.length - 2) 0 + mirror xn (xn.length : Int)) ∧
      mirror ys (-1) = ys.getD 1 0 ∧
      ∃ zs, Fwt53_update1 (xn.length : Int) ys = .ok zs ∧
        zs.getD 0 0 = ys.getD 0 0 + u1_53 * (mirror ys (-1) + ys.getD 1 0)) ∧
    Fwt53 xn = .ok (Fwt53_mirrored xn) := by
  have hp := isPow2_of_exists _ hpow
  have heven := isPow2_even _ hp h2
  refine ⟨mirror_right xn h2, ⟨liftOdd p1_53 xn, Fwt53_predict1_eq xn heven h2, by simp, ?_,
    mirror_left _, liftEven u1_53 (liftOdd p1_53 xn), ?_, ?_⟩, ?_⟩
  · have e : xn.length - 1 - 1 = xn.length - 2 := by omega
    rw [getD_liftOdd _ _ _ (by omega), if_pos (by omega), if_neg (by omega),
      mirror_right xn h2, e]
    ring
  · have := Fwt53_update1_eq (liftOdd p1_53 xn) (by simpa using heven) (by simpa using h2)
    simpa using this
  · rw [getD_liftEven _ _ _ (by simp; omega), if_pos (by decide), if_pos rfl, mirror_left]
    ring
  · rw [Fwt53_eq xn hp h2, Fwt53_mirrored, liftOdd_eq_predictMirrored xn heven,
      liftEven_eq_updateMirrored _ (by simpa [predictMirrored] using heven)]

theorem Fwt53_symmetric_extension_witness :
    (∃ k, [4, 2, 6, (8 : ℚ)].length = 2 ^ k) ∧ 2 ≤ [4, 2, 6, (8 : ℚ)].length ∧
    Fwt53 [4, 2, 6, 8] = .ok (Fwt53_mirrored [4, 2, 6, 8]) :=
  ⟨⟨2, by decide⟩, by decide,
    (Fwt53_symmetric_extension [4, 2, 6, 8] ⟨2, by decide⟩ (by decide)).2.2⟩

/-! ## Length 2 -/

theorem Fwt53_pair (a b : ℚ) :
    Fwt53 [a, b] = .ok [(a + b) / 2 / scale53, (b - a) * scale53] := by
  have hp : isPow2 ([a, b] : List ℚ).length := ⟨1, by simp, by simp⟩
  have ha : (deinterleave (scaleBy scale53 (liftEven u1_53 (liftOdd p1_53 [a, b])))).getD 0 0 =
      (a + (b - a) / 2) / scale53 := by
    have := getD_fwd_approx [a, b] (by simp) 0 (by simp)
    simpa [detail] using this
  have hd : (deinterleave (scaleBy scale53 (liftEven u1_53 (liftOdd p1_53 [a, b])))).getD 1 0 =
      scale53 * (b - a) := by
    have := getD_fwd_detail [a, b] (by simp) 0 (by simp)
    simpa [detail] using this
  rw [Fwt53_eq _ hp (by simp)]
  congr 1
  apply ext_getD _ _ (by simp)
  intro j hj
  have hj2 : j < 2 := by simpa using hj
  interval_cases j
  · rw [ha, List.getD_cons_zero]
    ring
  · rw [hd, List.getD_cons_succ, List.getD_cons_zero]
    ring

/-- C9. Length 2: for every `[a, b]` the interior predict and update loops of `Fwt53`
run no iteration (whatever their body), so each of the two stages is its boundary
statement alone; the result is `[(a + b) / 2 / scale53, (b - a) * scale53]`, and `Iwt53`
applied to it returns `[a, b]`. -/
theorem Fwt53_length_two (a b : ℚ) :
    (∀ (body : Int → List ℚ → Except Panic (List ℚ)) (xs : List ℚ),
      forLoop 1 (2 - 2) 2 body xs = .ok xs ∧ forLoop 2 2 2 body xs = .ok xs) ∧
    Fwt53_predict1 2 [a, b] = edgeAt p1_53 (2 - 1) (2 - 2) [a, b] ∧
    (∀ xs, Fwt53_update1 2 xs = edgeAt u1_53 0 1 xs) ∧
    Fwt53 [a, b] = .ok [(a + b) / 2 / scale53, (b - a) * scale53] ∧
    Iwt53 [(a + b) / 2 / scale53, (b - a) * scale53] = .ok [a, b] := by
  have hz : ∀ (body : Int → List ℚ → Except Panic (List ℚ)) (xs : List ℚ),
      forLoop 1 (2 - 2) 2 body xs = .ok xs ∧ forLoop 2 2 2 body xs = .ok xs :=
    fun body xs => ⟨forLoop_zero body _ _ _ (by decide) xs,
      forLoop_zero body _ _ _ (by decide) xs⟩
  refine ⟨hz, ?_, ?_, Fwt53_pair a b, ?_⟩
  · simp only [Fwt53_predict1, (hz _ _).1, bind, Except.bind]
  · intro xs
    simp only [Fwt53_update1, (hz _ _).2, bind, Except.bind]
  · have hp : isPow2 ([a, b] : List ℚ).length := ⟨1, by simp, by simp⟩
    obtain ⟨ys, h1, h2⟩ := roundtrip_core [a, b] hp (by simp)
    rw [Fwt53_pair] at h1
    cases h1
    exact h2

/-! ## Pack and unpack -/

/-- C10. Pack and unpack are inverse permutations: for a buffer `v` of even length `n`,
the pack stage of `Fwt53` yields `w` with `w[k] = v[2k]` and `w[n/2 + k] = v[2k+1]`, the
unpack stage of `Iwt53` yields `o` with `o[2k] = v[k]` and `o[2k+1] = v[k + n/2]`
(`0 ≤ k < n/2`), unpacking `w` gives `v`, and packing `o` gives `v`. -/
theorem pack_unpack_inverse (v : List ℚ) (heven : v.length % 2 = 0) :
    ∃ w o, Fwt53_pack (v.length : Int) v = .ok w ∧ Iwt53_unpack (v.length : Int) v = .ok o ∧
      w.length = v.length ∧ o.length = v.length ∧
      (∀ k, k < v.length / 2 →
        w.getD k 0 = v.getD (2 * k) 0 ∧ w.getD (v.length / 2 + k) 0 = v.getD (2 * k + 1) 0) ∧
      (∀ k, k < v.length / 2 →
        o.getD (2 * k) 0 = v.getD k 0 ∧ o.getD (2 * k + 1) 0 = v.getD (k + v.length / 2) 0) ∧
      Iwt53_unpack (v.length : Int) w = .ok v ∧ Fwt53_pack (v.length : Int) o = .ok v := by
  refine ⟨_, _, Fwt53_pack_eq v heven, Iwt53_unpack_eq v heven, by simp, by simp, ?_, ?_, ?_, ?_⟩
  · intro k hk
    constructor
    · rw [getD_deinterleave _ _ (by omega), if_pos hk]
    · rw [getD_deinterleave _ _ (by omega), if_neg (by omega), Nat.add_sub_cancel_left]
  · intro k hk
    constructor
    · rw [getD_interleave _ _ (by omega), if_pos (by omega)]
      congr 1
      omega
    · rw [getD_interleave _ _ (by omega), if_neg (by omega)]
      congr 1
      omega
  · have := Iwt53_unpack_eq (deinterleave v) (by simpa using heven)
    rw [length_deinterleave, interleave_deinterleave v heven] at this
    exact this
  · have := Fwt53_pack_eq (interleave v) (by simpa using heven)
    rw [length_interleave, deinterleave_interleave v heven] at this
    exact this

theorem pack_unpack_inverse_witness :
    [1, 2, 3, 4, 5, (6 : ℚ)].length % 2 = 0 ∧
    Fwt53_pack 6 [1, 2, 3, 4, 5, 6] = .ok [1, 3, 5, 2, 4, 6] ∧
    Iwt53_unpack 6 [1, 3, 5, 2, 4, 6] = .ok [1, 2, 3, 4, 5, 6] := by
  obtain ⟨w, o, h1, _, h3, _, h5, _, h7, _⟩ := pack_unpack_inverse [1, 2, 3, 4, 5, 6] (by decide)
  have hw : w = [1, 3, 5, 2, 4, 6] := by
    apply ext_getD _ _ (by simpa using h3)
    intro j hj
    have hj' : j < 6 := by simpa [h3] using hj
    have e0 := h5 0 (by decide)
    have e1 := h5 1 (by decide)
    have e2 := h5 2 (by decide)
    simp only [List.length_cons, List.length_nil, List.getD_cons_succ, List.getD_cons_zero,
      Nat.reduceAdd, Nat.reduceMul, Nat.reduceDiv] at e0 e1 e2
    interval_cases j
    · exact e0.1
    · exact e1.1
    · exact e2.1
    · exact e0.2
    · exact e1.2
    · exact e2.2
  subst hw
  exact ⟨by decide, h1, h7⟩

/-! ## Entries past the end of a buffer -/

theorem getD_beyond (a : List ℚ) (j : Nat) (h : a.length ≤ j) : a.getD j 0 = 0 := by
  simp [List.getD_eq_getElem?_getD, List.getElem?_eq_none h]

/-! ## Update and undo-update -/

/-- C11. The undo-update stage cancels the update stage: for every buffer `v` of even
length `n ≥ 2`, the update section of `Fwt53` completes with a buffer `ys` that differs
from `v` at even positions only, where it adds a combination of the odd-position
entries, and the undo-update section of `Iwt53` (the same statements with
`iu1_53 = -u1_53`) applied to `ys` returns `v`. -/
theorem unupdate_cancels_update (v : List ℚ) (heven : v.length % 2 = 0) (h2 : 2 ≤ v.length) :
    iu1_53 = -u1_53 ∧
    ∃ ys, Fwt53_update1 (v.length : Int) v = .ok ys ∧ ys.length = v.length ∧
      (∀ j, j % 2 = 1 → ys.getD j 0 = v.getD j 0) ∧
      ys.getD 0 0 = v.getD 0 0 + 2 * u1_53 * v.getD 1 0 ∧
      (∀ j, j % 2 = 0 → 2 ≤ j → j < v.length →
        ys.getD j 0 = v.getD j 0 + u1_53 * (v.getD (j - 1) 0 + v.getD (j + 1) 0)) ∧
      Iwt53_unupdate1 (v.length : Int) ys = .ok v := by
  refine ⟨rfl, liftEven u1_53 v, Fwt53_update1_eq v heven h2, by simp, ?_, ?_, ?_, ?_⟩
  · intro j hj
    by_cases hlt : j < v.length
    · rw [getD_liftEven _ _ j hlt, if_neg (by omega)]
    · rw [getD_beyond _ _ (by simp; omega), getD_beyond _ _ (by omega)]
  · rw [getD_liftEven _ _ 0 (by omega), if_pos (by decide), if_pos rfl]
  · intro j hj hj2 hlt
    rw [getD_liftEven _ _ j hlt, if_pos hj, if_neg (by omega)]
  · have h := Iwt53_unupdate1_eq (liftEven u1_53 v) (by simpa using heven) (by simpa using h2)
    have e : iu1_53 = -u1_53 := rfl
    rw [length_liftEven, e, liftEven_neg u1_53 v heven h2] at h
    exact h

theorem unupdate_cancels_update_witness :
    [4, 2, 6, (8 : ℚ)].length % 2 = 0 ∧ 2 ≤ [4, 2, 6, (8 : ℚ)].length ∧
    ∃ ys, Fwt53_update1 4 [4, 2, 6, 8] = .ok ys ∧ Iwt53_unupdate1 4 ys = .ok [4, 2, 6, 8] := by
  obtain ⟨_, ys, h1, _, _, _, _, h6⟩ :=
    unupdate_cancels_update [4, 2, 6, 8] (by decide) (by decide)
  exact ⟨by decide, by decide, ys, h1, h6⟩

/-! ## The scenario `[4, 2, 6, 8]` -/

theorem scenario_predict_core :
    Fwt53_predict1 4 [4, 2, 6, 8] = .ok [4, -3, 6, 2] := by
  have h := Fwt53_predict1_eq [4, 2, 6, 8] (by decide) (by decide)
  have e : liftOdd p1_53 [4, 2, 6, 8] = [4, -3, 6, 2] := by
    apply ext_getD _ _ (by simp)
    intro j hj
    have hj4 : j < 4 := by simpa using hj
    rw [getD_liftOdd _ _ j (by simpa using hj4)]
    interval_cases j <;>
      simp only [List.length_cons, List.length_nil, List.getD_cons_succ, List.getD_cons_zero,
        Nat.reduceAdd, Nat.reduceMod, Nat.reduceSub, Nat.reduceLT, Nat.reduceEqDiff,
        if_true, if_false, p1_53] <;> norm_num
  rw [e] at h
  exact h

theorem scenario_detail_core :
    ∃ out, Fwt53 [4, 2, 6, 8] = .ok out ∧ out.getD 2 0 = -3 * scale53 := by
  have hp : isPow2 ([4, 2, 6, 8] : List ℚ).length := by decide
  refine ⟨_, Fwt53_eq _ hp (by decide), ?_⟩
  have hd := getD_fwd_detail [4, 2, 6, 8] (by decide) 0 (by decide)
  have e : detail [4, 2, 6, 8] 0 = -3 := by
    simp only [detail, List.length_cons, List.length_nil, List.getD_cons_succ,
      List.getD_cons_zero, Nat.reduceAdd, Nat.reduceMul, Nat.reduceDiv, Nat.reduceLT, if_true]
    norm_num
  rw [e] at hd
  rw [show (2 : Nat) = ([4, 2, 6, 8] : List ℚ).length / 2 + 0 from rfl, hd]
  ring

/-- C12, amended: for `x = [4, 2, 6, 8]` the predict stage of `Fwt53` adds
`-0.5 * (4 + 6)` to `xn[1]` (its neighbours are `xn[0] = 4` and `xn[2] = 6`), so `xn[1]`
goes from 2 to `2 - 5 = -3`, and the detail coefficient at position 2 of the output is
`-3 * scale53`. -/
theorem scenario_predict :
    idx [4, 2, 6, 8] (1 - 1) = some 4 ∧ idx [4, 2, 6, 8] (1 + 1) = some 6 ∧
    (2 : ℚ) + p1_53 * (4 + 6) = -3 ∧
    Fwt53_predict1 4 [4, 2, 6, 8] = .ok [4, -3, 6, 2] ∧
    ∃ out, Fwt53 [4, 2, 6, 8] = .ok out ∧ out.getD 2 0 = -3 * scale53 := by
  refine ⟨by simp [idx], by simp [idx], by norm_num [p1_53], scenario_predict_core,
    scenario_detail_core⟩

/-- C12 as stated fails: after the predict stage `xn[1]` is `-3`, not `-4`, and the
detail coefficient at position 2 of the output is not `-4 * scale53`. -/
theorem scenario_predict_counterexample :
    ∃ ys out, Fwt53_predict1 4 [4, 2, 6, 8] = .ok ys ∧ ys.getD 1 0 ≠ -4 ∧
      Fwt53 [4, 2, 6, 8] = .ok out ∧ out.getD 2 0 ≠ -4 * scale53 := by
  obtain ⟨out, h1, h2⟩ := scenario_detail_core
  refine ⟨_, out, scenario_predict_core, by norm_num, h1, ?_⟩
  rw [h2]
  intro h
  have := mul_right_cancel₀ scale53_ne_zero h
  norm_num at this

/-! ## The reverse round trip -/

theorem scaleBy_inv_rev (s : ℚ) (hs : s ≠ 0) (v : List ℚ) :
    scaleBy s (scaleBy (1 / s) v) = v := by
  have h := scaleBy_inv (1 / s) (one_div_ne_zero hs) v
  rw [one_div_one_div] at h
  exact h

theorem liftEven_neg_rev (c : ℚ) (v : List ℚ) (heven : v.length % 2 = 0) (h2 : 2 ≤ v.length) :
    liftEven c (liftEven (-c) v) = v := by
  have h := liftEven_neg (-c) v heven h2
  rw [neg_neg] at h
  exact h

theorem liftOdd_neg_rev (c : ℚ) (v : List ℚ) (heven : v.length % 2 = 0) :
    liftOdd c (liftOdd (-c) v) = v := by
  have h := liftOdd_neg (-c) v heven
  rw [neg_neg] at h
  exact h

theorem reverse_roundtrip_core (y : List ℚ) (hp : isPow2 y.length) (h2 : 2 ≤ y.length) :
    ∃ xs, Iwt53 y = .ok xs ∧ xs.length = y.length ∧ Fwt53 xs = .ok y := by
  have heven := isPow2_even _ hp h2
  refine ⟨_, Iwt53_eq y hp h2, by simp, ?_⟩
  rw [Fwt53_eq _ (by simpa using hp) (by simpa using h2)]
  have e2 : ip1_53 = -p1_53 := rfl
  have e1 : iu1_53 = -u1_53 := rfl
  have e : iscale53 = 1 / scale53 := rfl
  rw [e2, liftOdd_neg_rev _ _ (by simpa using heven), e1,
    liftEven_neg_rev _ _ (by simpa using heven) (by simpa using h2), e,
    scaleBy_inv_rev _ scale53_ne_zero, deinterleave_interleave _ heven]

/-- C13. Reverse round trip: for every coefficient buffer `y` whose length is a power
of two and at least 2, `Iwt53` returns a buffer of the same length on which `Fwt53`
returns `y`; together with the forward round trip, the two transforms are mutually
inverse on buffers of that length. -/
theorem Fwt53_Iwt53_roundtrip (y : List ℚ) (hpow : ∃ k, y.length = 2 ^ k)
    (h2 : 2 ≤ y.length) :
    (∃ xs, Iwt53 y = .ok xs ∧ xs.length = y.length ∧ Fwt53 xs = .ok y) ∧
    (∃ ys, Fwt53 y = .ok ys ∧ ys.length = y.length ∧ Iwt53 ys = .ok y) := by
  have hp := isPow2_of_exists _ hpow
  refine ⟨reverse_roundtrip_core y hp h2, ?_⟩
  obtain ⟨ys, h1, h3⟩ := roundtrip_core y hp h2
  refine ⟨ys, h1, ?_, h3⟩
  rw [Fwt53_eq y hp h2] at h1
  cases h1
  simp

theorem Fwt53_Iwt53_roundtrip_witness :
    (∃ k, [3, 1, 4, (1 : ℚ)].length = 2 ^ k) ∧ 2 ≤ [3, 1, 4, (1 : ℚ)].length ∧
    ∃ xs, Iwt53 [3, 1, 4, 1] = .ok xs ∧ xs.length = [3, 1, 4, (1 : ℚ)].length ∧
      Fwt53 xs = .ok [3, 1, 4, 1] :=
  ⟨⟨2, by decide⟩, by decide,
    (Fwt53_Iwt53_roundtrip [3, 1, 4, 1] ⟨2, by decide⟩ (by decide)).1⟩

/-! ## Linearity -/

theorem length_lincomb (a b : ℚ) (x y : List ℚ) (hlen : x.length = y.length) :
    (lincomb a b x y).length = x.length := by
  simp [lincomb, hlen]

theorem getD_lincomb (a b : ℚ) (x y : List ℚ) (hlen : x.length = y.length) (j : Nat) :
    (lincomb a b x y).getD j 0 = a * x.getD j 0 + b * y.getD j 0 := by
  by_cases hj : j < x.length
  · have hj' : j < y.length := by omega
    simp [lincomb, List.getD_eq_getElem?_getD, List.getElem?_zipWith,
      List.getElem?_eq_getElem hj, List.getElem?_eq_getElem hj']
  · rw [getD_beyond _ _ (by rw [length_lincomb a b x y hlen]; omega),
      getD_beyond x _ (by omega), getD_beyond y _ (by omega)]
    ring

theorem liftOdd_lincomb (c a b : ℚ) (x y : List ℚ) (hlen : x.length = y.length) :
    liftOdd c (lincomb a b x y) = lincomb a b (liftOdd c x) (liftOdd c y) := by
  have hl := length_lincomb a b x y hlen
  apply ext_getD _ _ (by rw [length_liftOdd, hl, length_lincomb _ _ _ _ (by simp [hlen])]; simp)
  intro j hj
  rw [length_liftOdd, hl] at hj
  rw [getD_lincomb _ _ _ _ (by simp [hlen]), getD_liftOdd _ _ j (by omega),
    getD_liftOdd _ _ j hj, getD_liftOdd _ _ j (by omega), hl, ← hlen]
  simp only [getD_lincomb a b x y hlen]
  split_ifs <;> ring

theorem liftEven_lincomb (c a b : ℚ) (x y : List ℚ) (hlen : x.length = y.length) :
    liftEven c (lincomb a b x y) = lincomb a b (liftEven c x) (liftEven c y) := by
  have hl := length_lincomb a b x y hlen
  apply ext_getD _ _ (by rw [length_liftEven, hl, length_lincomb _ _ _ _ (by simp [hlen])]; simp)
  intro j hj
  rw [length_liftEven, hl] at hj
  rw [getD_lincomb _ _ _ _ (by simp [hlen]), getD_liftEven _ _ j (by omega),
    getD_liftEven _ _ j hj, getD_liftEven _ _ j (by omega)]
  simp only [getD_lincomb a b x y hlen]
  split_ifs <;> ring

theorem scaleBy_lincomb (s a b : ℚ) (x y : List ℚ) (hlen : x.length = y.length) :
    scaleBy s (lincomb a b x y) = lincomb a b (scaleBy s x) (scaleBy s y) := by
  have hl := length_lincomb a b x y hlen
  apply ext_getD _ _ (by rw [length_scaleBy, hl, length_lincomb _ _ _ _ (by simp [hlen])]; simp)
  intro j hj
  rw [length_scaleBy, hl] at hj
  rw [getD_lincomb _ _ _ _ (by simp [hlen]), getD_scaleBy _ _ j (by omega),
    getD_scaleBy _ _ j hj, getD_scaleBy _ _ j (by omega)]
  simp only [getD_lincomb a b x y hlen]
  split_ifs <;> ring

theorem deinterleave_lincomb (a b : ℚ) (x y : List ℚ) (hlen : x.length = y.length) :
    deinterleave (lincomb a b x y) = lincomb a b (deinterleave x) (deinterleave y) := by
  have hl := length_lincomb a b x y hlen
  apply ext_getD _ _
    (by rw [length_deinterleave, hl, length_lincomb _ _ _ _ (by simp [hlen])]; simp)
  intro j hj
  rw [length_deinterleave, hl] at hj
  rw [getD_lincomb _ _ _ _ (by simp [hlen]), getD_deinterleave _ j (by omega),
    getD_deinterleave _ j hj, getD_deinterleave _ j (by omega), hl, ← hlen]
  simp only [getD_lincomb a b x y hlen]
  split_ifs <;> rfl

theorem interleave_lincomb (a b : ℚ) (x y : List ℚ) (hlen : x.length = y.length) :
    interleave (lincomb a b x y) = lincomb a b (interleave x) (interleave y) := by
  have hl := length_lincomb a b x y hlen
  apply ext_getD _ _
    (by rw [length_interleave, hl, length_lincomb _ _ _ _ (by simp [hlen])]; simp)
  intro j hj
  rw [length_interleave, hl] at hj
  rw [getD_lincomb _ _ _ _ (by simp [hlen]), getD_interleave _ j (by omega),
    getD_interleave _ j hj, getD_interleave _ j (by omega), hl, ← hlen]
  simp only [getD_lincomb a b x y hlen]
  split_ifs <;> rfl

theorem Fwt53_lincomb (a b : ℚ) (x y : List ℚ) (hlen : x.length = y.length)
    (hp : isPow2 x.length) (h2 : 2 ≤ x.length) :
    ∃ fx fy, Fwt53 x = .ok fx ∧ Fwt53 y = .ok fy ∧ fx.length = x.length ∧
      fy.length = x.length ∧ Fwt53 (lincomb a b x y) = .ok (lincomb a b fx fy) := by
  have hl := length_lincomb a b x y hlen
  refine ⟨_, _, Fwt53_eq x hp h2, Fwt53_eq y (hlen ▸ hp) (hlen ▸ h2), by simp, by simp [hlen],
    ?_⟩
  rw [Fwt53_eq _ (by rw [hl]; exact hp) (by rw [hl]; exact h2), liftOdd_lincomb _ _ _ _ _ hlen,
    liftEven_lincomb _ _ _ _ _ (by simp [hlen]), scaleBy_lincomb _ _ _ _ _ (by simp [hlen]),
    deinterleave_lincomb _ _ _ _ (by simp [hlen])]

theorem Iwt53_lincomb (a b : ℚ) (x y : List ℚ) (hlen : x.length = y.length)
    (hp : isPow2 x.length) (h2 : 2 ≤ x.length) :
    ∃ ix iy, Iwt53 x = .ok ix ∧ Iwt53 y = .ok iy ∧ ix.length = x.length ∧
      iy.length = x.length ∧ Iwt53 (lincomb a b x y) = .ok (lincomb a b ix iy) := by
  have hl := length_lincomb a b x y hlen
  refine ⟨_, _, Iwt53_eq x hp h2, Iwt53_eq y (hlen ▸ hp) (hlen ▸ h2), by simp, by simp [hlen],
    ?_⟩
  rw [Iwt53_eq _ (by rw [hl]; exact hp) (by rw [hl]; exact h2), interleave_lincomb _ _ _ _ hlen,
    scaleBy_lincomb _ _ _ _ _ (by simp [hlen]), liftEven_lincomb _ _ _ _ _ (by simp [hlen]),
    liftOdd_lincomb _ _ _ _ _ (by simp [hlen])]

theorem lincomb_zero (x y : List ℚ) (hlen : x.length = y.length) :
    lincomb 0 0 x y = List.replicate x.length 0 := by
  apply ext_getD _ _ (by simp [length_lincomb 0 0 x y hlen])
  intro j hj
  rw [length_lincomb 0 0 x y hlen] at hj
  rw [getD_lincomb 0 0 x y hlen, getD_replicate _ _ _ hj]
  ring

/-- C14. Linearity: for signals `x` and `y` of the same power-of-two length `n ≥ 2` and
scalars `a`, `b`, `Fwt53 (a*x + b*y) = a * Fwt53 x + b * Fwt53 y` element for element,
and the same for `Iwt53`; the all-zero signal is mapped to the all-zero buffer by both. -/
theorem transforms_linear (a b : ℚ) (x y : List ℚ) (hlen : x.length = y.length)
    (hpow : ∃ k, x.length = 2 ^ k) (h2 : 2 ≤ x.length) :
    (∃ fx fy, Fwt53 x = .ok fx ∧ Fwt53 y = .ok fy ∧ fx.length = x.length ∧
      fy.length = x.length ∧ Fwt53 (lincomb a b x y) = .ok (lincomb a b fx fy)) ∧
    (∃ ix iy, Iwt53 x = .ok ix ∧ Iwt53 y = .ok iy ∧ ix.length = x.length ∧
      iy.length = x.length ∧ Iwt53 (lincomb a b x y) = .ok (lincomb a b ix iy)) ∧
    Fwt53 (List.replicate x.length 0) = .ok (List.replicate x.length 0) ∧
    Iwt53 (List.replicate x.length 0) = .ok (List.replicate x.length 0) := by
  have hp := isPow2_of_exists _ hpow
  refine ⟨Fwt53_lincomb a b x y hlen hp h2, Iwt53_lincomb a b x y hlen hp h2, ?_, ?_⟩
  · obtain ⟨fx, fy, _, _, h3, h4, h5⟩ := Fwt53_lincomb 0 0 x y hlen hp h2
    rw [lincomb_zero x y hlen, lincomb_zero fx fy (by omega), h3] at h5
    exact h5
  · obtain ⟨ix, iy, _, _, h3, h4, h5⟩ := Iwt53_lincomb 0 0 x y hlen hp h2
    rw [lincomb_zero x y hlen, lincomb_zero ix iy (by omega), h3] at h5
    exact h5

theorem transforms_linear_witness :
    [1, 2, 3, (4 : ℚ)].length = [0, 1, 0, (-1 : ℚ)].length ∧
    (∃ k, [1, 2, 3, (4 : ℚ)].length = 2 ^ k) ∧ 2 ≤ [1, 2, 3, (4 : ℚ)].length ∧
    lincomb 2 3 [1, 2, 3, 4] [0, 1, 0, -1] = [2, 7, 6, 5] ∧
    ∃ fx fy, Fwt53 [1, 2, 3, 4] = .ok fx ∧ Fwt53 [0, 1, 0, -1] = .ok fy ∧
      Fwt53 [2, 7, 6, 5] = .ok (lincomb 2 3 fx fy) := by
  have e : lincomb 2 3 [1, 2, 3, 4] [0, 1, 0, -1] = [2, 7, 6, 5] := by
    simp only [lincomb, List.zipWith_cons_cons, List.zipWith_nil_right]
    norm_num
  obtain ⟨fx, fy, h1, h2, _, _, h5⟩ :=
    (transforms_linear 2 3 [1, 2, 3, 4] [0, 1, 0, -1] rfl ⟨2, by decide⟩ (by decide)).1
  rw [e] at h5
  exact ⟨rfl, ⟨2, by decide⟩, by decide, e, fx, fy, h1, h2, h5⟩

/-! ## Affine signals -/

theorem getD_ramp (a b : ℚ) (n j : Nat) (h : j < n) :
    (ramp a b n).getD j 0 = a + b * (j : ℚ) :=
  getD_tabulate _ _ j h

theorem detail_ramp_interior (a b : ℚ) (n k : Nat) (hk : k + 1 < n / 2) :
    detail (ramp a b n) k = 0 := by
  have hl : (ramp a b n).length = n := by simp [ramp]
  unfold detail
  rw [hl, if_pos hk, getD_ramp _ _ _ _ (by omega), getD_ramp _ _ _ _ (by omega),
    getD_ramp _ _ _ _ (by omega)]
  push_cast
  ring

theorem detail_ramp_last (a b : ℚ) (n : Nat) (h2 : 2 ≤ n) :
    detail (ramp a b n) (n / 2 - 1) = b := by
  have hl : (ramp a b n).length = n := by simp [ramp]
  have e : ((n - 1 : Nat) : ℚ) = ((n - 2 : Nat) : ℚ) + 1 := by
    have : n - 1 = (n - 2) + 1 := by omega
    rw [this]
    push_cast
    ring
  unfold detail
  rw [hl, if_neg (by omega), getD_ramp _ _ _ _ (by omega), getD_ramp _ _ _ _ (by omega), e]
  ring

/-- C15. Affine signals: for all `a`, `b` and every power-of-two length `n ≥ 4`, `Fwt53`
of the ramp `x[i] = a + b * i` has detail coefficients `out[n/2 + k] = 0` for
`0 ≤ k < n/2 - 1`, and the last detail coefficient is `out[n-1] = b * scale53`. -/
theorem Fwt53_ramp_detail (a b : ℚ) (n : Nat) (hpow : ∃ k, n = 2 ^ k) (h4 : 4 ≤ n) :
    ∃ out, Fwt53 (ramp a b n) = .ok out ∧ out.length = n ∧
      (∀ k, k + 1 < n / 2 → out.getD (n / 2 + k) 0 = 0) ∧
      out.getD (n - 1) 0 = b * scale53 := by
  have hl : (ramp a b n).length = n := by simp [ramp]
  have hp : isPow2 (ramp a b n).length := by rw [hl]; exact isPow2_of_exists _ hpow
  have heven : (ramp a b n).length % 2 = 0 := isPow2_even _ hp (by rw [hl]; omega)
  have hev : n % 2 = 0 := by rw [← hl]; exact heven
  refine ⟨_, Fwt53_eq _ hp (by rw [hl]; omega), by simp [hl], ?_, ?_⟩
  · intro k hk
    have h := getD_fwd_detail (ramp a b n) heven k (by rw [hl]; omega)
    rw [hl, detail_ramp_interior a b n k hk] at h
    rw [h]
    ring
  · have h := getD_fwd_detail (ramp a b n) heven (n / 2 - 1) (by rw [hl]; omega)
    have e : n / 2 + (n / 2 - 1) = n - 1 := by omega
    rw [hl, detail_ramp_last a b n (by omega), e] at h
    rw [h]
    ring

theorem Fwt53_ramp_detail_witness :
    (∃ k, 8 = 2 ^ k) ∧ 4 ≤ 8 ∧
    ∃ out, Fwt53 (ramp 1 1 8) = .ok out ∧ out.length = 8 ∧
      (∀ k, k + 1 < 8 / 2 → out.getD (8 / 2 + k) 0 = 0) ∧
      out.getD (8 - 1) 0 = 1 * scale53 :=
  ⟨⟨3, by decide⟩, by decide, Fwt53_ramp_detail 1 1 8 ⟨3, by decide⟩ (by decide)⟩

/-! ## `Iwt53` stays in bounds -/

theorem idx_isSome_iff (a : List ℚ) (i : Int) :
    (idx a i).isSome ↔ 0 ≤ i ∧ i < a.length := by
  constructor
  · intro h
    by_contra hc
    have : idx a i = none := idx_none a i (by omega)
    rw [this] at h
    exact absurd h (by decide)
  · rintro ⟨h0, h1⟩
    rw [idx_ok a i h0 h1]
    rfl

theorem upd_isSome_iff (a : List ℚ) (i : Int) (v : ℚ) :
    (upd a i v).isSome ↔ 0 ≤ i ∧ i < a.length := by
  unfold upd
  split_ifs with h
  · simp [h]
  · simp [h]

/-- C16. `Iwt53` stays in bounds and keeps the length: a slice access succeeds exactly
when its index lies in `0 .. len-1`, and for every buffer whose length `n` is a power of
two with `n ≥ 2` each of the four sections of `Iwt53` completes without an
index-out-of-range panic, so the call completes, and the buffer still has length `n`. -/
theorem Iwt53_in_bounds (xn : List ℚ) (hpow : ∃ k, xn.length = 2 ^ k) (h2 : 2 ≤ xn.length) :
    (∀ (a : List ℚ) (i : Int), (idx a i).isSome ↔ 0 ≤ i ∧ i < a.length) ∧
    (∀ (a : List ℚ) (i : Int) (v : ℚ), (upd a i v).isSome ↔ 0 ≤ i ∧ i < a.length) ∧
    ∃ t1 t2 t3 out, Iwt53_unpack (xn.length : Int) xn = .ok t1 ∧
      Iwt53_unscale (xn.length : Int) t1 = .ok t2 ∧
      Iwt53_unupdate1 (xn.length : Int) t2 = .ok t3 ∧
      Iwt53_unpredict1 (xn.length : Int) t3 = .ok out ∧
      Iwt53 xn = .ok out ∧ out.length = xn.length := by
  have hp := isPow2_of_exists _ hpow
  have heven := isPow2_even _ hp h2
  have a1 := Iwt53_unpack_eq xn heven
  have a2 := Iwt53_unscale_eq (interleave xn)
  have a3 := Iwt53_unupdate1_eq (scaleBy iscale53 (interleave xn)) (by simpa using heven)
    (by simpa using h2)
  have a4 := Iwt53_unpredict1_eq (liftEven iu1_53 (scaleBy iscale53 (interleave xn)))
    (by simpa using heven) (by simpa using h2)
  simp only [length_liftEven, length_scaleBy, length_interleave] at a2 a3 a4
  exact ⟨idx_isSome_iff, upd_isSome_iff, _, _, _, _, a1, a2, a3, a4, Iwt53_eq xn hp h2,
    by simp⟩

theorem Iwt53_in_bounds_witness :
    (∃ k, [3, 1, 4, 1, 5, 9, 2, (6 : ℚ)].length = 2 ^ k) ∧
    2 ≤ [3, 1, 4, 1, 5, 9, 2, (6 : ℚ)].length ∧
    ∃ out, Iwt53 [3, 1, 4, 1, 5, 9, 2, 6] = .ok out ∧ out.length = 8 := by
  obtain ⟨_, _, _, _, _, out, _, _, _, _, h5, h6⟩ :=
    Iwt53_in_bounds [3, 1, 4, 1, 5, 9, 2, 6] ⟨3, by decide⟩ (by decide)
  exact ⟨⟨3, by decide⟩, by decide, out, h5, h6⟩

/-! ## The lifting constants -/

/-- C17. The lifting constants are exact inverses: `p1_53 = -0.5` and
`ip1_53 = -p1_53 = 0.5`, `u1_53 = 0.25` and `iu1_53 = -u1_53 = -0.25`, `iscale53` is the
reciprocal of `scale53`, and `scale53 * iscale53 = 1`. -/
theorem lifting_constants :
    p1_53 = -0.5 ∧ ip1_53 = -p1_53 ∧ ip1_53 = 0.5 ∧
    u1_53 = 0.25 ∧ iu1_53 = -u1_53 ∧ iu1_53 = -0.25 ∧
    scale53 = 1.4142135623730951 ∧ iscale53 = 1 / scale53 ∧ scale53 * iscale53 = 1 := by
  refine ⟨rfl, rfl, ?_, rfl, rfl, ?_, rfl, rfl, ?_⟩
  · norm_num [ip1_53, p1_53]
  · norm_num [iu1_53, u1_53]
  · rw [iscale53]
    exact mul_one_div_cancel scale53_ne_zero

end Dwt53
